import Mathlib

/-!
Verification of the `ast` package of the roundtrip_ini repository
(`src/ast/parser.go`): a lexer and grammar for an INI dialect that
preserves comments and blank lines, an in-memory tree (`AST`), editor
operations (`Lookup`, `LookupSection`, `Add`, `Remove`, `RemoveSection`)
and an encoder (the `String()` methods).

The Go code builds its parser with the participle library from the lexer
rules and grammar struct tags in `src/ast/parser.go`.  Here the lexer is
embedded directly from the `lexer.SimpleRule` list of `NewParser`, and the
grammar from the struct tags of `AST`, `Property` and `Section`, run by a
backtracking recursive-descent engine (the participle engine itself is a
library dependency, not part of the repository; the spec describes its
role as "look ahead past the comment run to the first non-comment,
non-newline token to choose the correct production").

Machine numbers: the Go `Number` stores a `float64` filled by
`strconv.ParseFloat` and printed by `strconv.FormatFloat(n, 'f', -1, 64)`
(shortest round-tripping form).  Those are standard-library functions,
not repository code; following the spec ("numeric literals are parsed
into an exact decimal magnitude") numbers are modelled as exact decimal
magnitudes, normalized so that equal magnitudes are equal values.
-/

namespace RoundtripIni

/-! ## Character classes of the lexer rules (src/ast/parser.go:28-36)

`Ident`   : `[a-zA-Z][a-zA-Z_\d]*`
`String`  : `"(?:\\.|[^"])*"`
`Float`   : `\d+(?:\.\d+)?`
`Punct`   : `[][=]`
`Comment` : `[#;][^\n]*`
`NewLine` : `\n`
`whitespace` (elided): `[\t ]+`
-/

/-- Head character of the `Ident` rule: `[a-zA-Z]`. -/
def isIdentStart (c : Char) : Bool := c.isAlpha

/-- Continuation character of the `Ident` rule: `[a-zA-Z_\d]`. -/
def isIdentCont (c : Char) : Bool := c.isAlpha || c.isDigit || c == '_'

/-- Horizontal whitespace, elided by the lexer: `[\t ]`. -/
def isHWS (c : Char) : Bool := c == ' ' || c == '\t'

/-- A lexical token, as classified by the lexer of `NewParser`.
Whitespace tokens are elided and never reach the parser. -/
inductive Token where
  | ident (s : List Char)
  | str (raw : List Char)   -- the characters between the two quotes, raw
  | float (s : List Char)
  | punct (c : Char)
  | comment (s : List Char)
  | newline
deriving DecidableEq, Repr

/-- Scan the body of a `String` token after the opening quote, following
the leftmost-first semantics of the Go regexp `"(?:\\.|[^"])*"`: an escape
`\\.` (where `.` does not match a newline) is preferred over `[^"]`, and
the body ends at the first quote not absorbed by an escape.  Returns the
raw body and the input after the closing quote. -/
def scanStr : List Char → Option (List Char × List Char)
  | [] => none
  | '"' :: rest => some ([], rest)
  | '\\' :: d :: rest =>
    if d = '\n' then
      -- `\\.` does not apply (`.` excludes newline); `[^"]` takes the backslash
      (scanStr (d :: rest)).map (fun p => ('\\' :: p.1, p.2))
    else
      (scanStr rest).map (fun p => ('\\' :: d :: p.1, p.2))
  | c :: rest => (scanStr rest).map (fun p => (c :: p.1, p.2))

/-- One lexer step: match the rules of `NewParser` in order at the head of
the input.  Returns the recognized token (`none` for elided whitespace)
and the remaining input; `none` overall is a lex error. -/
def scan : List Char → Option (Option Token × List Char)
  | [] => none
  | c :: rest =>
    if isIdentStart c then
      let tail := rest.takeWhile isIdentCont
      some (some (.ident (c :: tail)), rest.dropWhile isIdentCont)
    else if c = '"' then
      (scanStr rest).map (fun p => (some (.str p.1), p.2))
    else if c.isDigit then
      let intPart := (c :: rest).takeWhile Char.isDigit
      let rest1 := (c :: rest).dropWhile Char.isDigit
      match rest1 with
      | '.' :: d :: rest2 =>
        if d.isDigit then
          let frac := (d :: rest2).takeWhile Char.isDigit
          some (some (.float (intPart ++ '.' :: frac)),
                (d :: rest2).dropWhile Char.isDigit)
        else
          some (some (.float intPart), rest1)
      | _ => some (some (.float intPart), rest1)
    else if c = '[' ∨ c = ']' ∨ c = '=' then
      some (some (.punct c), rest)
    else if c = '#' ∨ c = ';' then
      some (some (.comment (c :: rest.takeWhile (fun x => !(x == '\n')))),
            rest.dropWhile (fun x => !(x == '\n')))
    else if c = '\n' then
      some (some .newline, rest)
    else if isHWS c then
      some (none, rest.dropWhile isHWS)
    else
      none

/-- Run the lexer to the end of input.  `fuel` bounds the recursion; it is
adequate whenever `fuel ≥ cs.length` because every `scan` step consumes at
least one character. -/
def lexAux : Nat → List Char → Option (List Token)
  | _, [] => some []
  | 0, _ :: _ => none
  | fuel + 1, cs =>
    match scan cs with
    | none => none
    | some (t?, rest) =>
      (lexAux fuel rest).map (fun ts =>
        match t? with
        | some t => t :: ts
        | none => ts)

/-- Lex a whole character list (the token stream handed to the parser). -/
def lexL (cs : List Char) : Option (List Token) := lexAux cs.length cs

/-! ## Numeric magnitudes

Modelled from the spec: "Numeric literals are parsed into an exact
decimal magnitude" and "numeric values render using the shortest decimal
representation that round-trips to the same magnitude".  The Go `Number`
stores a `float64` via the standard library (`strconv.ParseFloat` /
`strconv.FormatFloat(n, 'f', -1, 64)`), which is not repository code; the
magnitude is embedded as an exact unsigned decimal `mant / 10 ^ fexp`. -/

/-- An unsigned decimal magnitude `mant / 10 ^ fexp`. -/
structure Dec where
  mant : Nat
  fexp : Nat
deriving DecidableEq, Repr

/-- Normalize a decimal magnitude: strip factors of ten that are recorded
in both mantissa and exponent, so equal magnitudes compare equal. -/
def normDecAux : Nat → Nat → Dec
  | m, 0 => ⟨m, 0⟩
  | m, e + 1 => if m % 10 = 0 then normDecAux (m / 10) e else ⟨m, e + 1⟩

/-- Normal form of a decimal magnitude. -/
def normDec (d : Dec) : Dec := normDecAux d.mant d.fexp

/-- The rational magnitude denoted by a `Dec`. -/
def Dec.toRat (d : Dec) : ℚ := (d.mant : ℚ) / 10 ^ d.fexp

/-- Value of a run of decimal digit characters, most significant first
(`strconv`-style accumulation). -/
def parseNat (cs : List Char) : Nat :=
  cs.foldl (fun a c => 10 * a + (c.toNat - 48)) 0

/-- The digit character for `d < 10`. -/
def digitChar (d : Nat) : Char := Char.ofNat (48 + d)

/-- Digit characters of `n`, most significant first, by repeated
division; `fuel` bounds the recursion (adequate whenever `fuel ≥ n`). -/
def natCharsAux : Nat → Nat → List Char
  | 0, _ => []
  | fuel + 1, n => if n = 0 then [] else natCharsAux fuel (n / 10) ++ [digitChar (n % 10)]

/-- Decimal digit characters of `n`, most significant first. -/
def natChars (n : Nat) : List Char :=
  if n = 0 then ['0'] else natCharsAux n n

/-- `r` written with exactly `width` digits, zero-padded on the left
(requires `r < 10 ^ width`). -/
def padChars (width : Nat) (r : Nat) : List Char :=
  List.replicate (width - (natChars r).length) '0' ++ natChars r

/-- Exact value of a `Float` token text (`\d+(?:\.\d+)?`), normalized:
the split at `'.'` yields the integer and fractional digit runs. -/
def parseDecChars (cs : List Char) : Dec :=
  let intPart := cs.takeWhile Char.isDigit
  match cs.dropWhile Char.isDigit with
  | '.' :: frac => normDec ⟨parseNat intPart * 10 ^ frac.length + parseNat frac, frac.length⟩
  | _ => normDec ⟨parseNat intPart, 0⟩

/-- Shortest decimal rendering of a normalized magnitude: no exponent, no
sign, no padding, no trailing fractional zeros (the behaviour of
`strconv.FormatFloat(n, 'f', -1, 64)` on exactly-represented values). -/
def formatDec : Dec → List Char
  | ⟨m, 0⟩ => natChars m
  | ⟨m, e + 1⟩ =>
    natChars (m / 10 ^ (e + 1)) ++ '.' :: padChars (e + 1) (m % 10 ^ (e + 1))

/-! ## String literal escaping

Modelled from the spec: "string literals are unescaped per standard
backslash-escape rules before storage" and "string values render
double-quoted with escaping reapplied".  The Go code uses `fmt`'s `%q`
and participle's `Unquote` (`strconv.Unquote`), standard-library code;
the embedding covers the escapes `\"  \\  \n  \t  \r` and keeps other
characters verbatim, and — like `strconv.Unquote` — rejects a raw newline
inside a literal and any unsupported escape. -/

/-- Escape one character for a double-quoted literal. -/
def quoteChar (c : Char) : List Char :=
  if c = '"' then ['\\', '"']
  else if c = '\\' then ['\\', '\\']
  else if c = '\n' then ['\\', 'n']
  else if c = '\t' then ['\\', 't']
  else if c = '\r' then ['\\', 'r']
  else [c]

/-- The body (between the quotes) of the quoted form of `s`. -/
def quoteBody (s : List Char) : List Char := (s.map quoteChar).flatten

/-- Quote a string value for output (`%q`). -/
def quote (s : List Char) : List Char := '"' :: quoteBody s ++ ['"']

/-- Unescape a raw literal body (between the quotes). -/
def unquote : List Char → Option (List Char)
  | [] => some []
  | '\\' :: c :: rest =>
    if c = '\\' then (unquote rest).map ('\\' :: ·)
    else if c = '"' then (unquote rest).map ('"' :: ·)
    else if c = 'n' then (unquote rest).map ('\n' :: ·)
    else if c = 't' then (unquote rest).map ('\t' :: ·)
    else if c = 'r' then (unquote rest).map ('\r' :: ·)
    else none
  | '\\' :: [] => none
  | c :: rest => if c = '\n' then none else (unquote rest).map (c :: ·)

/-! ## The tree (entity model), from the struct declarations -/

/-- `Value` of src/ast/parser.go:211: a closed union of a string and a
number.  `string` carries the unescaped text; `number` the exact decimal
magnitude standing for the Go `float64`. -/
inductive Value where
  | string (S : String)
  | number (N : Dec)
deriving DecidableEq, Repr

/-- `Property` of src/ast/parser.go:177-182. -/
structure Property where
  Comments : List String
  Key : String
  Value : Value
  BlankLines : List String
deriving DecidableEq, Repr

/-- `Section` of src/ast/parser.go:237-242. -/
structure Section where
  Comments : List String
  Name : String
  BlankLines : List String
  Properties : List Property
deriving DecidableEq, Repr

/-- `AST` of src/ast/parser.go:49-54 (the `Pos` field is metadata only
and is not part of the model). -/
structure AST where
  BlankLines : List String
  Properties : List Property
  Sections : List Section
deriving DecidableEq, Repr

/-! ## The grammar, from the struct tags

```
AST      := @NewLine* Property* Section*
Property := (@Comment NewLine)* @Ident '=' (String|Float) NewLine? @NewLine*
Section  := (@Comment NewLine)* '[' @Ident ']' NewLine? @NewLine* Property*
```
A production that fails consumes nothing (the engine backtracks past a
comment run that turns out to precede the other construct). -/

/-- `(@Comment NewLine)*`: collect a run of comment lines. -/
def parseComments : List Token → List String × List Token
  | .comment c :: .newline :: rest =>
    let (cs, r) := parseComments rest
    (String.mk c :: cs, r)
  | ts => ([], ts)

/-- `@NewLine*`: count a run of newline tokens. -/
def parseNewlines : List Token → Nat × List Token
  | .newline :: rest =>
    let (n, r) := parseNewlines rest
    (n + 1, r)
  | ts => (0, ts)

/-- `@@` on a `Value`: the union `String | Number`, with participle's
`Unquote("String")` applied to string tokens. -/
def parseValue : List Token → Option (Value × List Token)
  | .str raw :: rest => (unquote raw).map (fun s => (.string (String.mk s), rest))
  | .float ds :: rest => some (.number (parseDecChars ds), rest)
  | _ => none

/-- Parse one `Property`; `none` consumes nothing. -/
def parseProperty (ts : List Token) : Option (Property × List Token) :=
  let (cmts, ts1) := parseComments ts
  match ts1 with
  | .ident k :: .punct '=' :: ts2 =>
    match parseValue ts2 with
    | none => none
    | some (v, ts3) =>
      match ts3 with
      | .newline :: ts4 =>
        let (n, ts5) := parseNewlines ts4
        some (⟨cmts, String.mk k, v, List.replicate n "\n"⟩, ts5)
      | _ => some (⟨cmts, String.mk k, v, []⟩, ts3)
  | _ => none

/-- `Property*` with explicit fuel (adequate when `fuel ≥ ts.length`). -/
def parseProps : Nat → List Token → List Property × List Token
  | 0, ts => ([], ts)
  | fuel + 1, ts =>
    match parseProperty ts with
    | none => ([], ts)
    | some (p, ts1) =>
      let (ps, r) := parseProps fuel ts1
      (p :: ps, r)

/-- Parse one `Section`; `none` consumes nothing. -/
def parseSection (ts : List Token) : Option (Section × List Token) :=
  let (cmts, ts1) := parseComments ts
  match ts1 with
  | .punct '[' :: .ident nm :: .punct ']' :: ts2 =>
    match ts2 with
    | .newline :: ts3 =>
      let (n, ts4) := parseNewlines ts3
      let (ps, ts5) := parseProps ts4.length ts4
      some (⟨cmts, String.mk nm, List.replicate n "\n", ps⟩, ts5)
    | _ =>
      let (ps, ts5) := parseProps ts2.length ts2
      some (⟨cmts, String.mk nm, [], ps⟩, ts5)
  | _ => none

/-- `Section*` with explicit fuel (adequate when `fuel ≥ ts.length`). -/
def parseSections : Nat → List Token → List Section × List Token
  | 0, ts => ([], ts)
  | fuel + 1, ts =>
    match parseSection ts with
    | none => ([], ts)
    | some (s, ts1) =>
      let (ss, r) := parseSections fuel ts1
      (s :: ss, r)

/-- Parse a whole token stream into an `AST`; the input must be consumed
entirely. -/
def parseAST (ts : List Token) : Option AST :=
  let (n, ts1) := parseNewlines ts
  let (props, ts2) := parseProps ts1.length ts1
  let (secs, ts3) := parseSections ts2.length ts2
  if ts3 = [] then some ⟨List.replicate n "\n", props, secs⟩ else none

/-- `parser.ParseString`: lex then parse. -/
def parseDoc (s : String) : Option AST := (lexL s.data).bind parseAST

/-! ## The encoder, from the `String()` methods -/

/-- Text of a `Value` (`String.String` at src/ast/parser.go:220-222,
`Number.String` at src/ast/parser.go:231-233). -/
def valueChars : Value → List Char
  | .string s => quote s.data
  | .number d => formatDec d

/-- `Property.String` (src/ast/parser.go:185-199): each comment line then
`"key = value\n"` then one empty line per blank-line marker. -/
def renderProp (p : Property) : List Char :=
  (p.Comments.map (fun c => c.data ++ ['\n'])).flatten
    ++ p.Key.data ++ ' ' :: '=' :: ' ' :: valueChars p.Value
    ++ '\n' :: (p.BlankLines.map (fun _ => '\n'))

/-- `Section.String` (src/ast/parser.go:245-263). -/
def renderSection (s : Section) : List Char :=
  (s.Comments.map (fun c => c.data ++ ['\n'])).flatten
    ++ '[' :: s.Name.data ++ ']' :: '\n' :: (s.BlankLines.map (fun _ => '\n'))
    ++ (s.Properties.map renderProp).flatten

/-- `AST.String` (src/ast/parser.go:161-173): global properties then
sections; the root blank lines are not emitted. -/
def renderAST (t : AST) : List Char :=
  (t.Properties.map renderProp).flatten ++ (t.Sections.map renderSection).flatten

/-- The encoder as a string-valued function (`tree.String()`). -/
def render (t : AST) : String := String.mk (renderAST t)

/-! ## Editor operations (src/ast/parser.go:56-158, 269-311) -/

/-- The split of a key path performed by `path.Split(keyPath)` followed by
`strings.TrimSuffix(section, "/")`: the characters before the last `'/'`
(empty when there is none) and the characters after it. -/
def splitPath (s : String) : String × String :=
  match s.data.reverse.dropWhile (fun c => !(c == '/')) with
  | '/' :: secRev =>
    (String.mk secRev.reverse,
     String.mk (s.data.reverse.takeWhile (fun c => !(c == '/'))).reverse)
  | _ => ("", String.mk (s.data.reverse.takeWhile (fun c => !(c == '/'))).reverse)

/-- `index` (src/ast/parser.go:289-296): position of the first element
whose name matches, scanning in order.  The Go `-1` sentinel is modelled
as `none`; `f` stands for the `namer` interface. -/
def index (f : α → String) : List α → String → Option Nat
  | [], _ => none
  | x :: xs, nm => if f x = nm then some 0 else (index f xs nm).map (· + 1)

/-- `removeFromSlice` (src/ast/parser.go:306-311): shift the elements
after `i` left by one and truncate.  The Go code performs the slice
accesses without bounds checks; the guard records their in-bounds
requirement and `none` models the out-of-bounds runtime fault. -/
def removeFromSlice (a : List α) (i : Nat) : Option (List α) :=
  if i < a.length then some (a.take i ++ a.drop (i + 1)) else none

/-- `AST.Lookup` (src/ast/parser.go:61-81). -/
def AST.Lookup (tree : AST) (keyPath : String) : Option Property :=
  let (sec, key) := splitPath keyPath
  if sec = "" then
    (index Property.Key tree.Properties key).bind (tree.Properties[·]?)
  else
    match tree.Sections.find? (fun s => s.Name == sec) with
    | some s => (index Property.Key s.Properties key).bind (s.Properties[·]?)
    | none => none

/-- `AST.LookupSection` (src/ast/parser.go:85-90). -/
def AST.LookupSection (tree : AST) (secName : String) : Option Section :=
  (index Section.Name tree.Sections secName).bind (tree.Sections[·]?)

/-- The named-section arm of `AST.Remove`: visit sections in order, act
on the first whose name matches, leave the rest untouched. -/
def removeInSections (sec key : String) : List Section → Option (List Section)
  | [] => some []
  | s :: rest =>
    if s.Name = sec then
      match index Property.Key s.Properties key with
      | some i => (removeFromSlice s.Properties i).map
          (fun ps => { s with Properties := ps } :: rest)
      | none => some (s :: rest)
    else
      (removeInSections sec key rest).map (s :: ·)

/-- `AST.Remove` (src/ast/parser.go:95-114).  `none` would be the
unchecked-slice fault, shown unreachable below. -/
def AST.Remove (tree : AST) (keyPath : String) : Option AST :=
  let (sec, key) := splitPath keyPath
  if sec = "" then
    match index Property.Key tree.Properties key with
    | some i => (removeFromSlice tree.Properties i).map
        (fun ps => { tree with Properties := ps })
    | none => some tree
  else
    (removeInSections sec key tree.Sections).map
      (fun ss => { tree with Sections := ss })

/-- `AST.RemoveSection` (src/ast/parser.go:119-123). -/
def AST.RemoveSection (tree : AST) (secName : String) : Option AST :=
  match index Section.Name tree.Sections secName with
  | some i => (removeFromSlice tree.Sections i).map
      (fun ss => { tree with Sections := ss })
  | none => some tree

/-- `add` (src/ast/parser.go:269-281): replace the value of the first
key match in place, else append a bare new property. -/
def add (properties : List Property) (key : String) (newVal : Value) :
    List Property :=
  match index Property.Key properties key with
  | some i => properties.modify (fun p => { p with Value := newVal }) i
  | none => properties ++ [{ Comments := [], Key := key, Value := newVal, BlankLines := [] }]

/-- The named-section arm of `AST.Add`: act on the first section whose
name matches; if none matches, append a bare new section holding exactly
the new property (src/ast/parser.go:150-157). -/
def addInSections (sec key : String) (newVal : Value) : List Section → List Section
  | [] => [{ Comments := [], Name := sec, BlankLines := [],
             Properties := [{ Comments := [], Key := key, Value := newVal, BlankLines := [] }] }]
  | s :: rest =>
    if s.Name = sec then { s with Properties := add s.Properties key newVal } :: rest
    else s :: addInSections sec key newVal rest

/-- `AST.Add` (src/ast/parser.go:132-158).  Total: it always succeeds. -/
def AST.Add (tree : AST) (keyPath : String) (newVal : Value) : AST :=
  let (sec, key) := splitPath keyPath
  if sec = "" then { tree with Properties := add tree.Properties key newVal }
  else { tree with Sections := addInSections sec key newVal tree.Sections }

/-! ## List and path helper lemmas -/

theorem takeWhile_middle {α : Type} {p : α → Bool} {xs ys : List α} {y : α}
    (hxs : ∀ c ∈ xs, p c = true) (hy : p y = false) :
    (xs ++ y :: ys).takeWhile p = xs := by
  induction xs with
  | nil => simp [List.takeWhile_cons, hy]
  | cons a as ih =>
    have ha : p a = true := hxs a (by simp)
    simp only [List.cons_append, List.takeWhile_cons, ha, if_true]
    rw [ih (fun c hc => hxs c (by simp [hc]))]

theorem dropWhile_middle {α : Type} {p : α → Bool} {xs ys : List α} {y : α}
    (hxs : ∀ c ∈ xs, p c = true) (hy : p y = false) :
    (xs ++ y :: ys).dropWhile p = y :: ys := by
  induction xs with
  | nil => simp [List.dropWhile_cons, hy]
  | cons a as ih =>
    have ha : p a = true := hxs a (by simp)
    simp only [List.cons_append, List.dropWhile_cons, ha, if_true]
    exact ih (fun c hc => hxs c (by simp [hc]))

theorem splitPath_no_slash {k : String} (hk : ∀ c ∈ k.data, c ≠ '/') :
    splitPath k = ("", k) := by
  have hall : ∀ c ∈ k.data.reverse, (!(c == '/')) = true := by
    intro c hc
    simpa using hk c (List.mem_reverse.mp hc)
  unfold splitPath
  rw [List.takeWhile_eq_self_iff.mpr hall, List.dropWhile_eq_nil_iff.mpr hall]
  simp

theorem splitPath_slash {s k : String} (hk : ∀ c ∈ k.data, c ≠ '/') :
    splitPath (s ++ "/" ++ k) = (s, k) := by
  have hdata : (s ++ "/" ++ k).data = s.data ++ '/' :: k.data := by
    simp [String.data_append]
  have hall : ∀ c ∈ k.data.reverse, (!(c == '/')) = true := by
    intro c hc
    simpa using hk c (List.mem_reverse.mp hc)
  unfold splitPath
  rw [hdata]
  rw [show (s.data ++ '/' :: k.data).reverse = k.data.reverse ++ '/' :: s.data.reverse by
    simp]
  rw [takeWhile_middle hall (by simp), dropWhile_middle hall (by simp)]
  simp

/-! ## `index` lemmas -/

theorem index_lt {α : Type} {f : α → String} {l : List α} {nm : String} {i : Nat}
    (h : index f l nm = some i) : i < l.length := by
  induction l generalizing i with
  | nil => simp [index] at h
  | cons x xs ih =>
    by_cases hx : f x = nm
    · simp [index, hx] at h
      subst h
      simp
    · simp [index, hx] at h
      obtain ⟨j, hj, rfl⟩ := h
      have := ih hj
      simp
      omega

theorem index_none_iff {α : Type} {f : α → String} {l : List α} {nm : String} :
    index f l nm = none ↔ ∀ x ∈ l, f x ≠ nm := by
  induction l with
  | nil => simp [index]
  | cons x xs ih =>
    by_cases hx : f x = nm
    · simp [index, hx]
    · simp [index, hx, Option.map_eq_none', ih]

theorem index_spec {α : Type} {f : α → String} {l : List α} {nm : String} {i : Nat}
    (h : index f l nm = some i) :
    ∃ x, l[i]? = some x ∧ f x = nm ∧
      ∀ j, j < i → ∀ y, l[j]? = some y → f y ≠ nm := by
  induction l generalizing i with
  | nil => simp [index] at h
  | cons x xs ih =>
    by_cases hx : f x = nm
    · simp [index, hx] at h
      subst h
      exact ⟨x, by simp, hx, by omega⟩
    · simp [index, hx] at h
      obtain ⟨j, hj, rfl⟩ := h
      obtain ⟨y, hy, hfy, hmin⟩ := ih hj
      refine ⟨y, by simpa using hy, hfy, ?_⟩
      intro k hk z hz
      match k with
      | 0 =>
        simp at hz
        subst hz; exact hx
      | k + 1 =>
        simp at hz
        exact hmin k (by omega) z hz

theorem index_bind_getElem {α : Type} {f : α → String} {l : List α} {nm : String} :
    (index f l nm).bind (l[·]?) = l.find? (fun x => f x == nm) := by
  induction l with
  | nil => simp [index]
  | cons x xs ih =>
    by_cases hx : f x = nm
    · simp [index, hx, List.find?_cons]
    · simp only [index, hx, if_false, List.find?_cons]
      rw [show (f x == nm) = false by simpa using hx]
      rw [← ih]
      cases index f xs nm with
      | none => simp
      | some i => simp

theorem modify_getElem? {α : Type} [Inhabited α] {l : List α} {i : Nat} {x : α}
    (h : l[i]? = some x) (f : α → α) : l.modify f i = l.set i (f x) := by
  rw [List.modify_eq_set, h]
  rfl

instance : Inhabited Value := ⟨.string ""⟩

instance : Inhabited Property := ⟨⟨[], "", default, []⟩⟩

theorem addInSections_skip {sec key : String} {v : Value} {pre l : List Section}
    (hpre : ∀ x ∈ pre, x.Name ≠ sec) :
    addInSections sec key v (pre ++ l) = pre ++ addInSections sec key v l := by
  induction pre with
  | nil => simp
  | cons x xs ih =>
    have hx : x.Name ≠ sec := hpre x (by simp)
    simp only [List.cons_append, addInSections, hx, if_false, List.cons.injEq, true_and]
    exact ih (fun y hy => hpre y (by simp [hy]))

theorem removeInSections_skip {sec key : String} {pre l : List Section}
    (hpre : ∀ x ∈ pre, x.Name ≠ sec) :
    removeInSections sec key (pre ++ l) =
      (removeInSections sec key l).map (pre ++ ·) := by
  induction pre with
  | nil => simp
  | cons x xs ih =>
    have hx : x.Name ≠ sec := hpre x (by simp)
    simp only [List.cons_append, removeInSections, hx, if_false, List.append_eq]
    rw [ih (fun y hy => hpre y (by simp [hy]))]
    cases removeInSections sec key l with
    | none => simp
    | some _ => simp

theorem addInSections_absent {sec key : String} {v : Value} {l : List Section}
    (habs : ∀ x ∈ l, x.Name ≠ sec) :
    addInSections sec key v l = l ++
      [{ Comments := [], Name := sec, BlankLines := [],
         Properties := [{ Comments := [], Key := key, Value := v, BlankLines := [] }] }] := by
  induction l with
  | nil => simp [addInSections]
  | cons x xs ih =>
    have hx : x.Name ≠ sec := habs x (by simp)
    simp only [addInSections, hx, if_false, List.cons_append, List.cons.injEq, true_and]
    exact ih (fun y hy => habs y (by simp [hy]))

theorem removeInSections_absent {sec key : String} {l : List Section}
    (habs : ∀ x ∈ l, x.Name ≠ sec) :
    removeInSections sec key l = some l := by
  induction l with
  | nil => rfl
  | cons x xs ih =>
    have hx : x.Name ≠ sec := habs x (by simp)
    simp only [removeInSections, hx, if_false]
    rw [ih (fun y hy => habs y (by simp [hy]))]
    rfl

theorem removeInSections_isSome (sec key : String) (l : List Section) :
    (removeInSections sec key l).isSome = true := by
  induction l with
  | nil => simp [removeInSections]
  | cons s rest ih =>
    by_cases hs : s.Name = sec
    · simp only [removeInSections, hs, if_true]
      cases hidx : index Property.Key s.Properties key with
      | none => simp
      | some i =>
        have hi := index_lt hidx
        simp [removeFromSlice, hi]
    · simp only [removeInSections, hs, if_false]
      cases hrec : removeInSections sec key rest with
      | none => rw [hrec] at ih; simp at ih
      | some _ => simp

/-- C9: `removeFromSlice` is only invoked on an index returned by a
successful `index` search, which is always within bounds, so the
out-of-bounds fault (`none`) is unreachable in `Remove` and
`RemoveSection` on every tree. -/
theorem remove_no_bounds_fault (tree : AST) (keyPath secName : String) :
    (tree.Remove keyPath).isSome = true ∧
      (tree.RemoveSection secName).isSome = true := by
  constructor
  · rcases hsp : splitPath keyPath with ⟨sec, key⟩
    by_cases hsec : sec = ""
    · subst hsec
      simp only [AST.Remove, hsp]
      cases hidx : index Property.Key tree.Properties key with
      | none => simp
      | some i =>
        have hi := index_lt hidx
        simp [removeFromSlice, hi]
    · simp only [AST.Remove, hsp, hsec, if_false]
      have := removeInSections_isSome sec key tree.Sections
      cases h : removeInSections sec key tree.Sections with
      | none => rw [h] at this; simp at this
      | some _ => simp
  · simp only [AST.RemoveSection]
    cases hidx : index Section.Name tree.Sections secName with
    | none => simp
    | some i =>
      have hi := index_lt hidx
      simp [removeFromSlice, hi]

/-- C8: `Lookup` resolves a bare key against the global properties
(first key match) and a `section/key` path against the first section of
that name only — if that section lacks the key the result is absent even
when a later section of the same name contains it.  The model is a pure
function: the tree is not modified. -/
theorem Lookup_spec :
    (∀ (t : AST) (k : String), (∀ c ∈ k.data, c ≠ '/') →
      t.Lookup k = t.Properties.find? (fun p => p.Key == k)) ∧
    (∀ (t : AST) (s k : String), s ≠ "" → (∀ c ∈ k.data, c ≠ '/') →
      t.Lookup (s ++ "/" ++ k) =
        (t.Sections.find? (fun x => x.Name == s)).bind
          (fun x => x.Properties.find? (fun p => p.Key == k))) := by
  constructor
  · intro t k hk
    have h := splitPath_no_slash hk
    simp only [AST.Lookup, h]
    exact index_bind_getElem
  · intro t s k hs hk
    have h := splitPath_slash (s := s) hk
    simp only [AST.Lookup, h, hs, if_false]
    cases t.Sections.find? (fun x => x.Name == s) with
    | none => simp
    | some x => simpa using index_bind_getElem

/-- C4: `Add` replaces the value of the first matching property in
place, preserving its comments and blank lines and accepting either
`Value` variant; appends a bare property at the end of an existing scope
when the key is absent; and appends a bare new section holding exactly
the new property when the section is absent.  It is a total function. -/
theorem Add_spec :
    (∀ (props : List Property) (key : String) (v : Value) (i : Nat),
      index Property.Key props key = some i →
      ∃ old, props[i]? = some old ∧ old.Key = key ∧
        (∀ j, j < i → ∀ q, props[j]? = some q → q.Key ≠ key) ∧
        add props key v = props.set i { old with Value := v }) ∧
    (∀ (props : List Property) (key : String) (v : Value),
      index Property.Key props key = none →
      add props key v =
        props ++ [{ Comments := [], Key := key, Value := v, BlankLines := [] }]) ∧
    (∀ (tree : AST) (kp : String) (v : Value) (key : String),
      splitPath kp = ("", key) →
      tree.Add kp v = { tree with Properties := add tree.Properties key v }) ∧
    (∀ (tree : AST) (kp : String) (v : Value) (sec key : String)
      (pre : List Section) (s : Section) (post : List Section),
      splitPath kp = (sec, key) → sec ≠ "" →
      tree.Sections = pre ++ s :: post → (∀ x ∈ pre, x.Name ≠ sec) → s.Name = sec →
      tree.Add kp v = { tree with Sections :=
        pre ++ { s with Properties := add s.Properties key v } :: post }) ∧
    (∀ (tree : AST) (kp : String) (v : Value) (sec key : String),
      splitPath kp = (sec, key) → sec ≠ "" →
      (∀ x ∈ tree.Sections, x.Name ≠ sec) →
      tree.Add kp v = { tree with Sections := tree.Sections ++
        [{ Comments := [], Name := sec, BlankLines := [],
           Properties := [{ Comments := [], Key := key, Value := v, BlankLines := [] }] }] }) := by
  refine ⟨?_, ?_, ?_, ?_, ?_⟩
  · intro props key v i hidx
    obtain ⟨old, hold, hkey, hmin⟩ := index_spec hidx
    exact ⟨old, hold, hkey, hmin, by
      simp only [add, hidx]
      exact modify_getElem? hold _⟩
  · intro props key v hidx
    simp [add, hidx]
  · intro tree kp v key hsp
    simp only [AST.Add, hsp, if_true]
  · intro tree kp v sec key pre s post hsp hsec hsecs hpre hs
    simp only [AST.Add, hsp, hsec, if_false, hsecs]
    rw [addInSections_skip hpre]
    simp [addInSections, hs]
  · intro tree kp v sec key hsp hsec habs
    simp only [AST.Add, hsp, hsec, if_false]
    rw [addInSections_absent habs]

/-- C5: `Remove` deletes exactly the first property resolved by the
path (with its comments and blank lines, the remaining siblings keeping
their order), is a no-op when the path does not resolve, and never
touches the section list on a bare name; `RemoveSection` deletes exactly
the first section of the name as one unit, is a no-op when absent, and
never touches the global properties. -/
theorem Remove_spec :
    (∀ (tree : AST) (kp key : String) (i : Nat),
      splitPath kp = ("", key) →
      index Property.Key tree.Properties key = some i →
      ∃ old, tree.Properties[i]? = some old ∧ old.Key = key ∧
        (∀ j, j < i → ∀ q, tree.Properties[j]? = some q → q.Key ≠ key) ∧
        tree.Remove kp = some { tree with
          Properties := tree.Properties.take i ++ tree.Properties.drop (i + 1) }) ∧
    (∀ (tree : AST) (kp key : String),
      splitPath kp = ("", key) →
      index Property.Key tree.Properties key = none →
      tree.Remove kp = some tree) ∧
    (∀ (tree : AST) (kp sec key : String)
      (pre : List Section) (s : Section) (post : List Section) (i : Nat),
      splitPath kp = (sec, key) → sec ≠ "" →
      tree.Sections = pre ++ s :: post → (∀ x ∈ pre, x.Name ≠ sec) → s.Name = sec →
      index Property.Key s.Properties key = some i →
      tree.Remove kp = some { tree with Sections := pre ++
        { s with Properties := s.Properties.take i ++ s.Properties.drop (i + 1) } :: post }) ∧
    (∀ (tree : AST) (kp sec key : String)
      (pre : List Section) (s : Section) (post : List Section),
      splitPath kp = (sec, key) → sec ≠ "" →
      tree.Sections = pre ++ s :: post → (∀ x ∈ pre, x.Name ≠ sec) → s.Name = sec →
      index Property.Key s.Properties key = none →
      tree.Remove kp = some tree) ∧
    (∀ (tree : AST) (kp sec key : String),
      splitPath kp = (sec, key) → sec ≠ "" →
      (∀ x ∈ tree.Sections, x.Name ≠ sec) →
      tree.Remove kp = some tree) ∧
    (∀ (tree : AST) (kp key : String),
      splitPath kp = ("", key) →
      (tree.Remove kp).map AST.Sections = some tree.Sections) ∧
    (∀ (tree : AST) (nm : String) (i : Nat),
      index Section.Name tree.Sections nm = some i →
      ∃ s, tree.Sections[i]? = some s ∧ s.Name = nm ∧
        (∀ j, j < i → ∀ y, tree.Sections[j]? = some y → y.Name ≠ nm) ∧
        tree.RemoveSection nm = some { tree with
          Sections := tree.Sections.take i ++ tree.Sections.drop (i + 1) }) ∧
    (∀ (tree : AST) (nm : String),
      index Section.Name tree.Sections nm = none →
      tree.RemoveSection nm = some tree) ∧
    (∀ (tree : AST) (nm : String),
      (tree.RemoveSection nm).map AST.Properties = some tree.Properties) := by
  have hglobal : ∀ (tree : AST) (kp key : String), splitPath kp = ("", key) →
      tree.Remove kp = match index Property.Key tree.Properties key with
        | some i => (removeFromSlice tree.Properties i).map
            (fun ps => { tree with Properties := ps })
        | none => some tree := by
    intro tree kp key hsp
    simp only [AST.Remove, hsp]
    simp
  refine ⟨?_, ?_, ?_, ?_, ?_, ?_, ?_, ?_, ?_⟩
  · intro tree kp key i hsp hidx
    obtain ⟨old, hold, hkey, hmin⟩ := index_spec hidx
    refine ⟨old, hold, hkey, hmin, ?_⟩
    rw [hglobal tree kp key hsp, hidx]
    have hi := index_lt hidx
    simp [removeFromSlice, hi]
  · intro tree kp key hsp hidx
    rw [hglobal tree kp key hsp, hidx]
  · intro tree kp sec key pre s post i hsp hsec hsecs hpre hs hidx
    simp only [AST.Remove, hsp, hsec, if_false, hsecs]
    rw [removeInSections_skip hpre]
    simp only [removeInSections, hs, if_true, hidx]
    have hi := index_lt hidx
    simp [removeFromSlice, hi]
  · intro tree kp sec key pre s post hsp hsec hsecs hpre hs hidx
    simp only [AST.Remove, hsp, hsec, if_false, hsecs]
    rw [removeInSections_skip hpre]
    simp only [removeInSections, hs, if_true, hidx]
    simp [← hsecs]
  · intro tree kp sec key hsp hsec habs
    simp only [AST.Remove, hsp, hsec, if_false]
    rw [removeInSections_absent habs]
    rfl
  · intro tree kp key hsp
    rw [hglobal tree kp key hsp]
    cases hidx : index Property.Key tree.Properties key with
    | none => simp
    | some i =>
      have hi := index_lt hidx
      simp [removeFromSlice, hi]
  · intro tree nm i hidx
    obtain ⟨s, hs, hnm, hmin⟩ := index_spec hidx
    refine ⟨s, hs, hnm, hmin, ?_⟩
    simp only [AST.RemoveSection, hidx]
    have hi := index_lt hidx
    simp [removeFromSlice, hi]
  · intro tree nm hidx
    simp [AST.RemoveSection, hidx]
  · intro tree nm
    simp only [AST.RemoveSection]
    cases hidx : index Section.Name tree.Sections nm with
    | none => simp
    | some i =>
      have hi := index_lt hidx
      simp [removeFromSlice, hi]

/-- Witness for C8 at a concrete tree with two sections named `dup`,
only the second of which holds key `k`: the bare lookup finds the global
property and the scoped lookup is absent. -/
theorem Lookup_spec_witness :
    AST.Lookup
      ⟨[], [⟨[], "g", .number ⟨1, 0⟩, []⟩],
       [⟨[], "dup", [], []⟩, ⟨[], "dup", [], [⟨[], "k", .number ⟨2, 0⟩, []⟩]⟩]⟩
      "g" = some ⟨[], "g", .number ⟨1, 0⟩, []⟩ ∧
    AST.Lookup
      ⟨[], [⟨[], "g", .number ⟨1, 0⟩, []⟩],
       [⟨[], "dup", [], []⟩, ⟨[], "dup", [], [⟨[], "k", .number ⟨2, 0⟩, []⟩]⟩]⟩
      ("dup" ++ "/" ++ "k") = none := by
  constructor
  · rw [Lookup_spec.1 _ "g" (by decide)]
    decide
  · rw [Lookup_spec.2 _ "dup" "k" (by decide) (by decide)]
    decide

/-- Witness for C4 at a concrete tree: replacing `foo` inside section
`fruits` rewrites only that property's value. -/
theorem Add_spec_witness :
    AST.Add
      ⟨[], [⟨[], "hello", .number ⟨2, 0⟩, []⟩],
       [⟨[], "fruits", [], [⟨["# c"], "foo", .string "bar", ["\n"]⟩]⟩]⟩
      ("fruits" ++ "/" ++ "foo") (.string "zoo") =
    ⟨[], [⟨[], "hello", .number ⟨2, 0⟩, []⟩],
     [⟨[], "fruits", [], [⟨["# c"], "foo", .string "zoo", ["\n"]⟩]⟩]⟩ := by
  rw [Add_spec.2.2.2.1
    ⟨[], [⟨[], "hello", .number ⟨2, 0⟩, []⟩],
     [⟨[], "fruits", [], [⟨["# c"], "foo", .string "bar", ["\n"]⟩]⟩]⟩
    ("fruits" ++ "/" ++ "foo") (.string "zoo") "fruits" "foo"
    [] ⟨[], "fruits", [], [⟨["# c"], "foo", .string "bar", ["\n"]⟩]⟩ []
    (by decide) (by decide) rfl (by decide) rfl]
  decide

/-- Witness for C5 at a concrete tree: removing `s1/b` deletes exactly
the first property of section `s1`, and `RemoveSection` of an absent
name is a no-op. -/
theorem Remove_spec_witness :
    AST.Remove
      ⟨[], [], [⟨[], "s1", [],
        [⟨["# cb"], "b", .number ⟨2, 0⟩, ["\n"]⟩, ⟨[], "c", .number ⟨3, 0⟩, []⟩]⟩]⟩
      ("s1" ++ "/" ++ "b") =
    some ⟨[], [], [⟨[], "s1", [], [⟨[], "c", .number ⟨3, 0⟩, []⟩]⟩]⟩ := by
  rw [Remove_spec.2.2.1
    ⟨[], [], [⟨[], "s1", [],
      [⟨["# cb"], "b", .number ⟨2, 0⟩, ["\n"]⟩, ⟨[], "c", .number ⟨3, 0⟩, []⟩]⟩]⟩
    ("s1" ++ "/" ++ "b") "s1" "b"
    [] ⟨[], "s1", [],
      [⟨["# cb"], "b", .number ⟨2, 0⟩, ["\n"]⟩, ⟨[], "c", .number ⟨3, 0⟩, []⟩]⟩ [] 0
    (by decide) (by decide) rfl (by decide) rfl (by decide)]
  decide

/-! ## Encoder shape lemmas -/

/-- The character list ends with a newline. -/
def EndsNL (cs : List Char) : Prop := ∃ ds, cs = ds ++ ['\n']

theorem EndsNL.append_right {a b : List Char} (hb : EndsNL b) : EndsNL (a ++ b) := by
  obtain ⟨ds, rfl⟩ := hb
  exact ⟨a ++ ds, by simp⟩

theorem EndsNL.cons {l : List Char} (c : Char) (h : EndsNL l) : EndsNL (c :: l) := by
  obtain ⟨ds, rfl⟩ := h
  exact ⟨c :: ds, by simp⟩

theorem endsNL_newline_blanks (bl : List String) (rest : List Char)
    (h : rest = [] ∨ EndsNL rest) :
    EndsNL ('\n' :: (bl.map (fun _ => '\n') ++ rest)) := by
  induction bl with
  | nil =>
    rcases h with rfl | h
    · exact ⟨[], by simp⟩
    · exact h.cons '\n'
  | cons x xs ih =>
    simpa using ih.cons '\n'

theorem endsNL_cons_map (bl : List String) :
    EndsNL ('\n' :: bl.map (fun _ => '\n')) := by
  simpa using endsNL_newline_blanks bl [] (Or.inl rfl)

theorem endsNL_renderProp (p : Property) : EndsNL (renderProp p) := by
  unfold renderProp
  exact EndsNL.append_right (endsNL_cons_map p.BlankLines)

theorem endsNL_flatten {l : List (List Char)} (hne : l ≠ [])
    (h : ∀ x ∈ l, EndsNL x) : EndsNL l.flatten := by
  induction l with
  | nil => exact absurd rfl hne
  | cons x xs ih =>
    cases xs with
    | nil => simpa using h x (by simp)
    | cons y ys =>
      have := ih (by simp) (fun z hz => h z (by simp [hz]))
      simpa using EndsNL.append_right (a := x) this

theorem endsNL_renderSection (s : Section) : EndsNL (renderSection s) := by
  unfold renderSection
  rcases hp : s.Properties with _ | ⟨q, qs⟩
  · simp only [hp, List.map_nil, List.flatten_nil, List.append_nil]
    exact EndsNL.append_right (EndsNL.cons ']' (endsNL_cons_map s.BlankLines))
  · refine EndsNL.append_right (endsNL_flatten ?_ ?_)
    · simp [hp]
    · rintro x hx
      simp only [List.mem_map] at hx
      obtain ⟨p, _, rfl⟩ := hx
      exact endsNL_renderProp p

theorem endsNL_renderAST {t : AST} (h : t.Properties ≠ [] ∨ t.Sections ≠ []) :
    EndsNL (renderAST t) := by
  unfold renderAST
  rcases hs : t.Sections with _ | ⟨s, ss⟩
  · rcases h with hp | hsec
    · simp only [List.map_nil, List.flatten_nil, List.append_nil]
      refine endsNL_flatten (by simpa using hp) ?_
      rintro x hx
      simp only [List.mem_map] at hx
      obtain ⟨p, _, rfl⟩ := hx
      exact endsNL_renderProp p
    · exact absurd hs hsec
  · refine EndsNL.append_right (endsNL_flatten (by simp) ?_)
    rintro x hx
    simp only [List.mem_map] at hx
    obtain ⟨q, _, rfl⟩ := hx
    exact endsNL_renderSection q

/-! ## Lexing and parsing of newline-only input -/

theorem scan_newline (rest : List Char) :
    scan ('\n' :: rest) = some (some .newline, rest) := rfl

theorem lexL_newlines (n : Nat) :
    lexL (List.replicate n '\n') = some (List.replicate n Token.newline) := by
  unfold lexL
  rw [List.length_replicate]
  induction n with
  | zero => rfl
  | succ m ih =>
    have hstep : lexAux (m + 1) (List.replicate (m + 1) '\n') =
        (lexAux m (List.replicate m '\n')).map (fun ts => Token.newline :: ts) := rfl
    rw [hstep, ih]
    rfl

theorem parseNewlines_replicate (n : Nat) (ts : List Token)
    (h : ∀ rest, ts ≠ .newline :: rest) :
    parseNewlines (List.replicate n Token.newline ++ ts) = (n, ts) := by
  induction n with
  | zero =>
    simp only [List.replicate_zero, List.nil_append]
    cases ts with
    | nil => rfl
    | cons x rest =>
      cases x with
      | newline => exact absurd rfl (h rest)
      | ident s => rfl
      | str r => rfl
      | float s => rfl
      | punct c => rfl
      | comment s => rfl
  | succ m ih =>
    rw [List.replicate_succ, List.cons_append, parseNewlines, ih]

/-- C10: the empty string and newline-only input parse to a document
with no properties and no sections, which renders to the empty string;
and the empty output arises exactly for such documents (any other
document renders with a trailing newline). -/
theorem empty_doc_spec :
    (∀ s : String, (∀ c ∈ s.data, c = '\n') →
      ∃ bl, parseDoc s = some ⟨bl, [], []⟩ ∧ render ⟨bl, [], []⟩ = "") ∧
    (∀ t : AST, render t = "" ↔ (t.Properties = [] ∧ t.Sections = [])) := by
  constructor
  · intro s hs
    have hdata : s.data = List.replicate s.data.length '\n' :=
      List.eq_replicate_of_mem hs
    refine ⟨List.replicate s.data.length "\n", ?_, rfl⟩
    have hlex : parseDoc s = parseAST (List.replicate s.data.length Token.newline) := by
      unfold parseDoc
      conv_lhs => rw [hdata, lexL_newlines]
      rfl
    have hnl : parseNewlines (List.replicate s.data.length Token.newline) =
        (s.data.length, []) := by
      simpa using parseNewlines_replicate s.data.length []
        (fun rest h => List.noConfusion h)
    rw [hlex]
    unfold parseAST
    rw [hnl]
    rfl
  · intro t
    constructor
    · intro h
      by_contra hne
      have hor : t.Properties ≠ [] ∨ t.Sections ≠ [] := by tauto
      obtain ⟨ds, hds⟩ := endsNL_renderAST hor
      have : (render t).data = ds ++ ['\n'] := by
        simpa [render] using hds
      rw [h] at this
      simp at this
    · rintro ⟨hp, hs⟩
      simp [render, renderAST, hp, hs]

/-- Witness for C10: two newlines parse to the empty document with two
recorded root blank lines, rendered as the empty string. -/
theorem empty_doc_spec_witness :
    ∃ bl, parseDoc "\n\n" = some ⟨bl, [], []⟩ ∧ render ⟨bl, [], []⟩ = "" :=
  empty_doc_spec.1 "\n\n" (by decide)

/-- C6: rendering normalizes deterministically — `"b=2"` re-renders as
`"b = 2\n"`, `"[ s1 ]\nb =2\n"` as `"[s1]\nb = 2\n"`, root blank lines
are never emitted, and any document with a property or section renders
with a final newline even when the source lacked one. -/
theorem render_normalization :
    (parseDoc "b=2").map render = some "b = 2\n" ∧
    (parseDoc "[ s1 ]\nb =2\n").map render = some "[s1]\nb = 2\n" ∧
    (parseDoc "a = 1").map render = some "a = 1\n" ∧
    (∀ t : AST, render ⟨[], t.Properties, t.Sections⟩ = render t) ∧
    (∀ t : AST, t.Properties ≠ [] ∨ t.Sections ≠ [] →
      (render t).data ≠ [] ∧ (render t).data.getLast? = some '\n') := by
  refine ⟨by decide, by decide, by decide, fun t => rfl, ?_⟩
  intro t h
  obtain ⟨ds, hds⟩ := endsNL_renderAST h
  have hdata : (render t).data = ds ++ ['\n'] := by simpa [render] using hds
  constructor
  · rw [hdata]; simp
  · rw [hdata]; simp

/-- Witness for C6 at a concrete document with root blank lines and a
missing source newline. -/
theorem render_normalization_witness :
    (render ⟨["\n", "\n"], [⟨[], "a", .number ⟨1, 0⟩, []⟩], []⟩).data.getLast?
      = some '\n' :=
  (render_normalization.2.2.2.2 ⟨["\n", "\n"], [⟨[], "a", .number ⟨1, 0⟩, []⟩], []⟩
    (Or.inl (by decide))).2

/-! ## Decimal digit arithmetic -/

theorem digit_toNat_bounds {c : Char} (h : c.isDigit = true) :
    48 ≤ c.toNat ∧ c.toNat ≤ 57 := by
  simpa [Char.isDigit] using h

theorem digitChar_toNat {d : Nat} (h : d < 10) : (digitChar d).toNat = 48 + d := by
  interval_cases d <;> decide

theorem digitChar_isDigit {d : Nat} (h : d < 10) : (digitChar d).isDigit = true := by
  interval_cases d <;> decide

theorem foldl_parseNat (acc : Nat) (cs : List Char) :
    cs.foldl (fun a c => 10 * a + (c.toNat - 48)) acc =
      acc * 10 ^ cs.length + parseNat cs := by
  induction cs generalizing acc with
  | nil => simp [parseNat]
  | cons c cs ih =>
    show cs.foldl _ (10 * acc + (c.toNat - 48)) = _
    rw [ih]
    have : parseNat (c :: cs) = (c.toNat - 48) * 10 ^ cs.length + parseNat cs := by
      show cs.foldl _ (10 * 0 + (c.toNat - 48)) = _
      rw [ih]
      ring_nf
    rw [this]
    simp [List.length_cons, pow_succ]
    ring

theorem parseNat_append (xs ys : List Char) :
    parseNat (xs ++ ys) = parseNat xs * 10 ^ ys.length + parseNat ys := by
  unfold parseNat
  rw [List.foldl_append, foldl_parseNat]
  rfl

theorem parseNat_lt {cs : List Char} (h : ∀ c ∈ cs, c.isDigit = true) :
    parseNat cs < 10 ^ cs.length := by
  induction cs with
  | nil => simp [parseNat]
  | cons c cs ih =>
    have hc := digit_toNat_bounds (h c (by simp))
    have hd : c.toNat - 48 ≤ 9 := by omega
    have hcs := ih (fun x hx => h x (by simp [hx]))
    have hsplit : parseNat (c :: cs) = (c.toNat - 48) * 10 ^ cs.length + parseNat cs := by
      show cs.foldl _ (10 * 0 + (c.toNat - 48)) = _
      rw [foldl_parseNat]
      ring_nf
    rw [hsplit, List.length_cons, pow_succ]
    have h9 : (c.toNat - 48) * 10 ^ cs.length ≤ 9 * 10 ^ cs.length :=
      Nat.mul_le_mul_right _ hd
    omega

theorem parseNat_replicate_zero (z : Nat) (cs : List Char) :
    parseNat (List.replicate z '0' ++ cs) = parseNat cs := by
  rw [parseNat_append]
  have : parseNat (List.replicate z '0') = 0 := by
    induction z with
    | zero => rfl
    | succ m ih =>
      rw [List.replicate_succ]
      show (List.replicate m '0').foldl _ (10 * 0 + ('0'.toNat - 48)) = 0
      simpa [parseNat] using ih
  simp [this]

theorem parseNat_natCharsAux : ∀ fuel n, n ≤ fuel →
    parseNat (natCharsAux fuel n) = n := by
  intro fuel
  induction fuel with
  | zero =>
    intro n hn
    interval_cases n
    rfl
  | succ m ih =>
    intro n hn
    by_cases h0 : n = 0
    · subst h0
      simp [natCharsAux, parseNat]
    · have hrec : n / 10 ≤ m := by omega
      simp only [natCharsAux, h0, if_false]
      rw [parseNat_append, ih _ hrec]
      have : parseNat [digitChar (n % 10)] = n % 10 := by
        show [digitChar (n % 10)].foldl _ 0 = n % 10
        simp [List.foldl, digitChar_toNat (Nat.mod_lt n (by omega))]
      rw [this]
      simp
      omega

theorem natCharsAux_digits : ∀ fuel n, ∀ c ∈ natCharsAux fuel n, c.isDigit = true := by
  intro fuel
  induction fuel with
  | zero => intro n c hc; simp [natCharsAux] at hc
  | succ m ih =>
    intro n c hc
    by_cases h0 : n = 0
    · subst h0; simp [natCharsAux] at hc
    · simp only [natCharsAux, h0, if_false, List.mem_append, List.mem_singleton] at hc
      rcases hc with hc | rfl
      · exact ih _ c hc
      · exact digitChar_isDigit (Nat.mod_lt n (by omega))

theorem natCharsAux_len_ub : ∀ fuel n, n ≤ fuel →
    n < 10 ^ (natCharsAux fuel n).length := by
  intro fuel
  induction fuel with
  | zero =>
    intro n hn
    interval_cases n
    simp [natCharsAux]
  | succ m ih =>
    intro n hn
    by_cases h0 : n = 0
    · subst h0; simp [natCharsAux]
    · have hrec : n / 10 ≤ m := by omega
      have := ih _ hrec
      simp only [natCharsAux, h0, if_false, List.length_append, List.length_singleton]
      rw [pow_succ]
      have h1 : n / 10 + 1 ≤ 10 ^ (natCharsAux m (n / 10)).length := this
      have h2 : n < 10 * (n / 10) + 10 := by omega
      calc n < 10 * (n / 10) + 10 := h2
        _ = 10 * (n / 10 + 1) := by ring
        _ ≤ 10 * 10 ^ (natCharsAux m (n / 10)).length := by omega
        _ = 10 ^ (natCharsAux m (n / 10)).length * 10 := by ring

theorem natCharsAux_len_lb : ∀ fuel n, n ≤ fuel → 1 ≤ n →
    10 ^ ((natCharsAux fuel n).length - 1) ≤ n := by
  intro fuel
  induction fuel with
  | zero => intro n hn h1; omega
  | succ m ih =>
    intro n hn h1
    have h0 : n ≠ 0 := by omega
    simp only [natCharsAux, h0, if_false, List.length_append, List.length_singleton]
    by_cases hsm : n < 10
    · have : n / 10 = 0 := Nat.div_eq_of_lt hsm
      rw [this]
      have : natCharsAux m 0 = [] := by cases m <;> rfl
      rw [this]
      simpa using h1
    · have hq1 : 1 ≤ n / 10 := Nat.one_le_div_iff (by omega) |>.mpr (by omega)
      have hrec : n / 10 ≤ m := by omega
      have hlb := ih _ hrec hq1
      have hlen1 : 1 ≤ (natCharsAux m (n / 10)).length := by
        by_contra hc
        have hz : (natCharsAux m (n / 10)).length = 0 := by omega
        have hub := natCharsAux_len_ub m (n / 10) hrec
        rw [hz] at hub
        simp at hub
        omega
      have : (natCharsAux m (n / 10)).length + 1 - 1 =
          ((natCharsAux m (n / 10)).length - 1) + 1 := by omega
      rw [this, pow_succ]
      calc 10 ^ ((natCharsAux m (n / 10)).length - 1) * 10 ≤ (n / 10) * 10 :=
            Nat.mul_le_mul_right _ hlb
        _ ≤ n := by omega

theorem parseNat_natChars (n : Nat) : parseNat (natChars n) = n := by
  by_cases h0 : n = 0
  · subst h0; decide
  · simp only [natChars, h0, if_false]
    exact parseNat_natCharsAux n n le_rfl

theorem natChars_digits (n : Nat) : ∀ c ∈ natChars n, c.isDigit = true := by
  by_cases h0 : n = 0
  · subst h0; decide
  · simp only [natChars, h0, if_false]
    exact natCharsAux_digits n n

theorem natChars_len_ub (n : Nat) : n < 10 ^ (natChars n).length := by
  by_cases h0 : n = 0
  · subst h0; decide
  · simp only [natChars, h0, if_false]
    exact natCharsAux_len_ub n n le_rfl

theorem natChars_len_lb {n : Nat} (h1 : 1 ≤ n) :
    10 ^ ((natChars n).length - 1) ≤ n := by
  have h0 : n ≠ 0 := by omega
  simp only [natChars, h0, if_false]
  exact natCharsAux_len_lb n n le_rfl h1

theorem natChars_len_pos (n : Nat) : 1 ≤ (natChars n).length := by
  by_cases h0 : n = 0
  · subst h0; decide
  · have := natChars_len_ub n
    by_contra hc
    have hz : (natChars n).length = 0 := by omega
    rw [hz] at this
    simp at this
    omega

theorem digitLen_le_of_lt_pow {n w : Nat} (hw : 1 ≤ w) (h : n < 10 ^ w) :
    (natChars n).length ≤ w := by
  by_cases h0 : n = 0
  · subst h0; simpa [natChars] using hw
  · have hlb := natChars_len_lb (n := n) (by omega)
    by_contra hc
    have : w ≤ (natChars n).length - 1 := by omega
    have : 10 ^ w ≤ 10 ^ ((natChars n).length - 1) :=
      Nat.pow_le_pow_right (by omega) this
    omega

theorem padChars_parseNat (width r : Nat) :
    parseNat (padChars width r) = r := by
  unfold padChars
  rw [parseNat_replicate_zero, parseNat_natChars]

theorem padChars_length {width r : Nat} (h : (natChars r).length ≤ width) :
    (padChars width r).length = width := by
  unfold padChars
  rw [List.length_append, List.length_replicate]
  omega

theorem padChars_digits (width r : Nat) : ∀ c ∈ padChars width r, c.isDigit = true := by
  intro c hc
  rcases List.mem_append.mp hc with hc | hc
  · rw [List.eq_of_mem_replicate hc]; decide
  · exact natChars_digits r c hc

/-! ## Normalization and exactness of decimal magnitudes -/

theorem normDecAux_toRat : ∀ (e m : Nat), (normDecAux m e).toRat = (Dec.mk m e).toRat := by
  intro e
  induction e with
  | zero => intro m; rfl
  | succ e2 ih =>
    intro m
    by_cases h : m % 10 = 0
    · have hdvd : (10 : Nat) ∣ m := Nat.dvd_of_mod_eq_zero h
      simp only [normDecAux, h, if_true]
      rw [ih]
      simp only [Dec.toRat]
      have hcast : ((m / 10 : Nat) : ℚ) = (m : ℚ) / 10 := by
        rw [Nat.cast_div hdvd (by norm_num)]
        norm_num
      rw [hcast, div_div]
      rw [show (10 : ℚ) * 10 ^ e2 = 10 ^ (e2 + 1) by rw [pow_succ]; ring]
    · simp [normDecAux, h]

theorem normDecAux_fixed : ∀ (e m : Nat), normDec (normDecAux m e) = normDecAux m e := by
  intro e
  induction e with
  | zero => intro m; rfl
  | succ e2 ih =>
    intro m
    by_cases h : m % 10 = 0
    · simp only [normDecAux, h, if_true]
      exact ih _
    · simp [normDec, normDecAux, h]

theorem normDec_toRat (d : Dec) : (normDec d).toRat = d.toRat := by
  exact normDecAux_toRat d.fexp d.mant

theorem normDec_idem (d : Dec) : normDec (normDec d) = normDec d :=
  normDecAux_fixed d.fexp d.mant

theorem normDecAux_strip : ∀ (e m : Nat), ∃ j, j ≤ e ∧ 10 ^ j ∣ m ∧
    normDecAux m e = ⟨m / 10 ^ j, e - j⟩ := by
  intro e
  induction e with
  | zero => intro m; exact ⟨0, le_rfl, by simp, by simp [normDecAux]⟩
  | succ e2 ih =>
    intro m
    by_cases h : m % 10 = 0
    · have hdvd : (10 : Nat) ∣ m := Nat.dvd_of_mod_eq_zero h
      obtain ⟨j, hj, hjd, heq⟩ := ih (m / 10)
      refine ⟨j + 1, by omega, ?_, ?_⟩
      · obtain ⟨w, hw⟩ := hjd
        obtain ⟨v, hv⟩ := hdvd
        refine ⟨w, ?_⟩
        rw [pow_succ]
        rw [hv] at hw ⊢
        rw [Nat.mul_div_cancel_left v (by norm_num)] at hw
        rw [hw]
        ring
      · simp only [normDecAux, h, if_true]
        rw [heq, Nat.div_div_eq_div_mul]
        have h1 : 10 * 10 ^ j = 10 ^ (j + 1) := by rw [pow_succ]; ring
        have h2 : e2 - j = e2 + 1 - (j + 1) := by omega
        rw [h1, h2]
    · exact ⟨0, by omega, by simp, by simp [normDecAux, h]⟩

theorem parseDecChars_digits_only {i : List Char} (hi : ∀ c ∈ i, c.isDigit = true) :
    parseDecChars i = ⟨parseNat i, 0⟩ := by
  unfold parseDecChars
  rw [List.takeWhile_eq_self_iff.mpr hi, List.dropWhile_eq_nil_iff.mpr hi]
  rfl

theorem parseDecChars_dot {i : List Char} (f : List Char)
    (hi : ∀ c ∈ i, c.isDigit = true) :
    parseDecChars (i ++ '.' :: f) =
      normDec ⟨parseNat i * 10 ^ f.length + parseNat f, f.length⟩ := by
  unfold parseDecChars
  rw [takeWhile_middle hi (by decide), dropWhile_middle hi (by decide)]
  rfl

theorem padLen_le {e : Nat} (m : Nat) :
    (natChars (m % 10 ^ (e + 1))).length ≤ e + 1 :=
  digitLen_le_of_lt_pow (by omega) (Nat.mod_lt _ (Nat.pos_pow_of_pos _ (by norm_num)))

theorem formatDec_roundtrip {d : Dec} (h : normDec d = d) :
    parseDecChars (formatDec d) = d := by
  obtain ⟨m, e⟩ := d
  cases e with
  | zero =>
    show parseDecChars (natChars m) = _
    rw [parseDecChars_digits_only (natChars_digits m), parseNat_natChars]
  | succ e2 =>
    show parseDecChars (natChars (m / 10 ^ (e2 + 1)) ++ '.' ::
      padChars (e2 + 1) (m % 10 ^ (e2 + 1))) = _
    rw [parseDecChars_dot _ (natChars_digits _)]
    rw [padChars_length (padLen_le m), padChars_parseNat, parseNat_natChars]
    have hm : m / 10 ^ (e2 + 1) * 10 ^ (e2 + 1) + m % 10 ^ (e2 + 1) = m := by
      rw [mul_comm]
      exact Nat.div_add_mod m _
    rw [hm]
    exact h

/-- The shape of a `Float` token text: `\d+` or `\d+.\d+`. -/
def floatShape (cs : List Char) : Prop :=
  (cs ≠ [] ∧ ∀ c ∈ cs, c.isDigit = true) ∨
  (∃ i f, i ≠ [] ∧ f ≠ [] ∧ (∀ c ∈ i, c.isDigit = true) ∧
    (∀ c ∈ f, c.isDigit = true) ∧ cs = i ++ '.' :: f)

theorem intPart_div {pi pf k : Nat} (hpf : pf < 10 ^ k) :
    (pi * 10 ^ k + pf) / 10 ^ k = pi := by
  rw [add_comm, Nat.add_mul_div_right _ _ (Nat.pos_pow_of_pos _ (by norm_num)),
    Nat.div_eq_of_lt hpf]
  omega

theorem formatDec_shortest {d : Dec} (h : normDec d = d) :
    ∀ cs, floatShape cs → parseDecChars cs = d →
      (formatDec d).length ≤ cs.length := by
  intro cs hshape hparse
  rcases hshape with ⟨hne, hdig⟩ | ⟨i, f, hine, hfne, hidig, hfdig, rfl⟩
  · rw [parseDecChars_digits_only hdig] at hparse
    subst hparse
    show (natChars (parseNat cs)).length ≤ cs.length
    exact digitLen_le_of_lt_pow (by
      cases cs with
      | nil => exact absurd rfl hne
      | cons a as => simp) (parseNat_lt hdig)
  · rw [parseDecChars_dot f hidig] at hparse
    have hpf : parseNat f < 10 ^ f.length := parseNat_lt hfdig
    have hpi : parseNat i < 10 ^ i.length := parseNat_lt hidig
    have hilen : 1 ≤ i.length := by
      cases i with
      | nil => exact absurd rfl hine
      | cons a as => simp
    obtain ⟨j, hj, hjd, hstrip⟩ :=
      normDecAux_strip f.length (parseNat i * 10 ^ f.length + parseNat f)
    rw [show normDec ⟨parseNat i * 10 ^ f.length + parseNat f, f.length⟩ =
      normDecAux (parseNat i * 10 ^ f.length + parseNat f) f.length from rfl,
      hstrip] at hparse
    subst hparse
    have hq : (parseNat i * 10 ^ f.length + parseNat f) / 10 ^ f.length = parseNat i :=
      intPart_div hpf
    have hlen : (i ++ '.' :: f).length = i.length + 1 + f.length := by
      simp
      omega
    rcases he : f.length - j with _ | e2
    · -- the whole fractional part was stripped: fexp 0, mantissa is the integer part
      have hjf : j = f.length := by omega
      subst hjf
      show (natChars _).length ≤ _
      rw [hq]
      have : (natChars (parseNat i)).length ≤ i.length :=
        digitLen_le_of_lt_pow hilen hpi
      omega
    · have hfmt : formatDec ⟨(parseNat i * 10 ^ f.length + parseNat f) / 10 ^ j, e2 + 1⟩
          = natChars ((parseNat i * 10 ^ f.length + parseNat f) / 10 ^ j / 10 ^ (e2 + 1))
            ++ '.' :: padChars (e2 + 1)
              ((parseNat i * 10 ^ f.length + parseNat f) / 10 ^ j % 10 ^ (e2 + 1)) := rfl
      rw [hfmt, List.length_append]
      have hdd : (parseNat i * 10 ^ f.length + parseNat f) / 10 ^ j / 10 ^ (e2 + 1)
          = parseNat i := by
        rw [Nat.div_div_eq_div_mul, ← pow_add]
        rw [show j + (e2 + 1) = f.length by omega]
        exact hq
      rw [hdd]
      have h1 : (natChars (parseNat i)).length ≤ i.length :=
        digitLen_le_of_lt_pow hilen hpi
      have h2 : ('.' :: padChars (e2 + 1)
          ((parseNat i * 10 ^ f.length + parseNat f) / 10 ^ j % 10 ^ (e2 + 1))).length
          = 1 + (e2 + 1) := by
        rw [List.length_cons, padChars_length (padLen_le _)]
        omega
      rw [h2, hlen]
      omega

/-- C7: a numeric literal is parsed into the exact decimal magnitude it
denotes (`parseNat` being the plain base-10 reading of a digit run, as
the first conjunct anchors), and the encoder renders a stored magnitude
as a decimal string that parses back to exactly that magnitude and is no
longer than any literal denoting it — in particular without padding or
unnecessary trailing zeros. -/
theorem number_exact_shortest :
    (∀ n : Nat, parseNat (natChars n) = n) ∧
    (∀ i : List Char, (∀ c ∈ i, c.isDigit = true) →
      (parseDecChars i).toRat = (parseNat i : ℚ)) ∧
    (∀ i f : List Char, (∀ c ∈ i, c.isDigit = true) →
      (parseDecChars (i ++ '.' :: f)).toRat =
        (parseNat i : ℚ) + (parseNat f : ℚ) / 10 ^ f.length) ∧
    (∀ d : Dec, normDec d = d → parseDecChars (formatDec d) = d) ∧
    (∀ d : Dec, normDec d = d → ∀ cs, floatShape cs → parseDecChars cs = d →
      (formatDec d).length ≤ cs.length) := by
  refine ⟨parseNat_natChars, ?_, ?_, @formatDec_roundtrip, @formatDec_shortest⟩
  · intro i hi
    rw [parseDecChars_digits_only hi]
    simp [Dec.toRat]
  · intro i f hi
    rw [parseDecChars_dot f hi, normDec_toRat]
    simp only [Dec.toRat]
    push_cast
    have hne : (10 : ℚ) ^ f.length ≠ 0 := by positivity
    field_simp

/-- Witness for C7: `1.50` denotes exactly `1 + 50/100`; `0.3` is stored
as `⟨3, 1⟩`, re-renders to a string parsing back to itself, and that
rendering is no longer than the four-character literal `0.30`. -/
theorem number_exact_shortest_witness :
    (parseDecChars (['1'] ++ '.' :: ['5', '0'])).toRat =
      (parseNat ['1'] : ℚ) + (parseNat ['5', '0'] : ℚ) / 10 ^ (['5', '0'] : List Char).length ∧
    parseDecChars (formatDec ⟨3, 1⟩) = ⟨3, 1⟩ ∧
    (formatDec ⟨3, 1⟩).length ≤ (['0', '.', '3', '0'] : List Char).length := by
  refine ⟨number_exact_shortest.2.2.1 ['1'] ['5', '0'] (by decide),
    number_exact_shortest.2.2.2.1 ⟨3, 1⟩ (by decide),
    number_exact_shortest.2.2.2.2 ⟨3, 1⟩ (by decide) ['0', '.', '3', '0'] ?_ (by decide)⟩
  exact Or.inr ⟨['0'], ['3', '0'], by decide, by decide, by decide, by decide, rfl⟩

/-! ## Round-trip machinery: canonical documents and their token streams

A document that came out of the parser (or was built with the same
shapes) lexes and re-parses deterministically.  `identOK` / `commentOK`
record the lexical classes of the stored strings; `valueOK` that a
number is in normal form (as every parsed number is); `astOK` that the
root records no leading blank lines (the encoder drops them). -/

/-- The stored string is a well-formed `Ident` token text. -/
def identOK (s : String) : Bool :=
  match s.data with
  | [] => false
  | c :: cs => isIdentStart c && cs.all isIdentCont

/-- The stored string is a well-formed `Comment` token text. -/
def commentOK (s : String) : Bool :=
  match s.data with
  | [] => false
  | c :: cs => (c == '#' || c == ';') && cs.all (fun x => !(x == '\n'))

/-- A stored value re-lexes to a single token: any string does (quoting
escapes it), a number when it is in normal form. -/
def valueOK : Value → Bool
  | .string _ => true
  | .number d => normDec d == d

/-- All stored strings of the property are well-formed token texts and
each recorded blank line is the newline the parser stores. -/
def propOK (p : Property) : Bool :=
  identOK p.Key && p.Comments.all commentOK && valueOK p.Value
    && p.BlankLines.all (fun b => b == "\n")

/-- All stored strings of the section are well-formed token texts and
each recorded blank line is the newline the parser stores. -/
def sectionOK (s : Section) : Bool :=
  identOK s.Name && s.Comments.all commentOK && s.Properties.all propOK
    && s.BlankLines.all (fun b => b == "\n")

/-- Canonical document: no root blank lines and well-formed token texts
throughout. -/
def astOK (t : AST) : Bool :=
  t.BlankLines.isEmpty && t.Properties.all propOK && t.Sections.all sectionOK

/-- The root with its recorded leading blank lines dropped — exactly the
part of a parse result that the encoder does not reproduce. -/
def stripRoot (t : AST) : AST := ⟨[], t.Properties, t.Sections⟩

/-- The token stream of a rendered `Value`. -/
def tokensOfValue : Value → Token
  | .string s => .str (quoteBody s.data)
  | .number d => .float (formatDec d)

/-- The token stream of a rendered `Property`. -/
def tokensOfProp (p : Property) : List Token :=
  (p.Comments.map (fun c => [Token.comment c.data, Token.newline])).flatten
    ++ Token.ident p.Key.data :: Token.punct '=' :: tokensOfValue p.Value
    :: Token.newline :: List.replicate p.BlankLines.length Token.newline

/-- The token stream of a rendered `Section`. -/
def tokensOfSection (s : Section) : List Token :=
  (s.Comments.map (fun c => [Token.comment c.data, Token.newline])).flatten
    ++ Token.punct '[' :: Token.ident s.Name.data :: Token.punct ']'
    :: Token.newline :: (List.replicate s.BlankLines.length Token.newline
    ++ (s.Properties.map tokensOfProp).flatten)

/-- The token stream of a rendered document. -/
def tokensOfAST (t : AST) : List Token :=
  (t.Properties.map tokensOfProp).flatten
    ++ (t.Sections.map tokensOfSection).flatten

/-! ## Lexer composition -/

theorem scanStr_step_other {c : Char} (rest : List Char)
    (hq : ¬c = '"') (hb : ¬c = '\\') :
    scanStr (c :: rest) = (scanStr rest).map (fun p => (c :: p.1, p.2)) := by
  cases rest with
  | nil =>
    simp [scanStr, hq, hb]
  | cons d rest2 =>
    conv_lhs => rw [scanStr.eq_def]
    simp [hq, hb]

theorem scanStr_shrink_aux : ∀ (n : Nat) (cs : List Char), cs.length ≤ n →
    ∀ b r, scanStr cs = some (b, r) → r.length < cs.length := by
  intro n
  induction n with
  | zero =>
    intro cs hcs b r h
    have : cs = [] := List.length_eq_zero.mp (by omega)
    subst this
    simp [scanStr] at h
  | succ m ih =>
    intro cs hcs b r h
    cases cs with
    | nil => simp [scanStr] at h
    | cons c rest =>
      by_cases hq : c = '"'
      · subst hq
        simp [scanStr] at h
        obtain ⟨rfl, rfl⟩ := h
        simp
      · by_cases hb : c = '\\'
        · subst hb
          cases rest with
          | nil => simp [scanStr] at h
          | cons d rest2 =>
            by_cases hd : d = '\n'
            · subst hd
              have hstep : scanStr ('\\' :: '\n' :: rest2) =
                  (scanStr ('\n' :: rest2)).map (fun p => ('\\' :: p.1, p.2)) := rfl
              rw [hstep] at h
              cases hs : scanStr ('\n' :: rest2) with
              | none => rw [hs] at h; simp at h
              | some p =>
                rw [hs] at h
                simp at h
                obtain ⟨rfl, rfl⟩ := h
                have hlt := ih ('\n' :: rest2) (by simp at hcs ⊢; omega) p.1 p.2
                  (by rw [hs])
                simp at hlt ⊢
                omega
            · have hstep : scanStr ('\\' :: d :: rest2) =
                  (scanStr rest2).map (fun p => ('\\' :: d :: p.1, p.2)) := by
                conv_lhs => rw [scanStr.eq_def]
                simp [hd]
              rw [hstep] at h
              cases hs : scanStr rest2 with
              | none => rw [hs] at h; simp at h
              | some p =>
                rw [hs] at h
                simp at h
                obtain ⟨rfl, rfl⟩ := h
                have hlt := ih rest2 (by simp at hcs ⊢; omega) p.1 p.2 (by rw [hs])
                simp
                omega
        · rw [scanStr_step_other rest hq hb] at h
          cases hs : scanStr rest with
          | none => rw [hs] at h; simp at h
          | some p =>
            rw [hs] at h
            simp at h
            obtain ⟨rfl, rfl⟩ := h
            have hlt := ih rest (by simp at hcs ⊢; omega) p.1 p.2 (by rw [hs])
            simp
            omega

theorem scanStr_shrink {cs b r : List Char} (h : scanStr cs = some (b, r)) :
    r.length < cs.length :=
  scanStr_shrink_aux cs.length cs le_rfl b r h

theorem length_dropWhile_le (p : Char → Bool) (l : List Char) :
    (l.dropWhile p).length ≤ l.length := by
  induction l with
  | nil => simp
  | cons c cs ih =>
    rw [List.dropWhile_cons]
    by_cases h : p c
    · simp only [h, if_true]
      simp
      omega
    · simp [h]

theorem scan_shrink : ∀ {cs : List Char} {t? : Option Token} {rest : List Char},
    scan cs = some (t?, rest) → rest.length < cs.length := by
  intro cs t? rest h
  cases cs with
  | nil => simp [scan] at h
  | cons c cs2 =>
    simp only [scan] at h
    split_ifs at h with h1 h2 h3 h4 h5 h6 h7
    · -- ident
      simp at h
      obtain ⟨_, rfl⟩ := h
      have := length_dropWhile_le isIdentCont cs2
      simp
      omega
    · -- string
      cases hs : scanStr cs2 with
      | none => rw [hs] at h; simp at h
      | some p =>
        rw [hs] at h
        simp at h
        obtain ⟨_, rfl⟩ := h
        have := scanStr_shrink hs
        simp
        omega
    · -- float
      have hdrop : (c :: cs2).dropWhile Char.isDigit = cs2.dropWhile Char.isDigit := by
        simp [List.dropWhile_cons, h3]
      rw [hdrop] at h
      have hlen1 := length_dropWhile_le Char.isDigit cs2
      split at h
      next d rest2 heq =>
        have hlen3 : rest2.length + 2 ≤ cs2.length := by
          have h5 := hlen1
          rw [heq] at h5
          simpa using h5
        split_ifs at h with hd
        · simp at h
          obtain ⟨_, rfl⟩ := h
          have hlen2 := length_dropWhile_le Char.isDigit rest2
          have hstep : (d :: rest2).dropWhile Char.isDigit =
              rest2.dropWhile Char.isDigit := by
            simp [List.dropWhile_cons, hd]
          rw [hstep]
          simp
          omega
        · simp at h
          obtain ⟨_, rfl⟩ := h
          simp
          omega
      next heq2 =>
        simp at h
        obtain ⟨_, rfl⟩ := h
        simp
        omega
    · -- punct
      simp at h
      obtain ⟨_, rfl⟩ := h
      simp
    · -- comment
      simp at h
      obtain ⟨_, rfl⟩ := h
      have := length_dropWhile_le (fun x => !(x == '\n')) cs2
      simp
      omega
    · -- newline
      simp at h
      obtain ⟨_, rfl⟩ := h
      simp
    · -- whitespace
      simp at h
      obtain ⟨_, rfl⟩ := h
      have := length_dropWhile_le isHWS cs2
      simp
      omega

theorem lexAux_congr : ∀ (f1 : Nat), ∀ {f2 : Nat} {cs : List Char},
    cs.length ≤ f1 → cs.length ≤ f2 → lexAux f1 cs = lexAux f2 cs := by
  intro f1
  induction f1 with
  | zero =>
    intro f2 cs h1 h2
    have : cs = [] := List.length_eq_zero.mp (by omega)
    subst this
    cases f2 <;> rfl
  | succ g1 ih =>
    intro f2 cs h1 h2
    cases cs with
    | nil => cases f2 <;> rfl
    | cons c cs2 =>
      cases f2 with
      | zero => simp at h2
      | succ g2 =>
        have hcl : cs2.length + 1 ≤ g1 + 1 := by simpa using h1
        have hcl2 : cs2.length + 1 ≤ g2 + 1 := by simpa using h2
        show (match scan (c :: cs2) with
          | none => none
          | some (t?, rest) => (lexAux g1 rest).map _) =
          (match scan (c :: cs2) with
          | none => none
          | some (t?, rest) => (lexAux g2 rest).map _)
        cases hs : scan (c :: cs2) with
        | none => rfl
        | some p =>
          obtain ⟨t?, rest⟩ := p
          have hlt : rest.length < cs2.length + 1 := by simpa using scan_shrink hs
          have hih := @ih g2 rest (by omega) (by omega)
          simp only []
          rw [hih]

theorem lexL_of_fuel {fuel : Nat} {cs : List Char} (h : cs.length ≤ fuel) :
    lexAux fuel cs = lexL cs :=
  lexAux_congr fuel h le_rfl

theorem lex_step {cs : List Char} {t : Token} {rest : List Char}
    (h : scan cs = some (some t, rest)) :
    lexL cs = (lexL rest).map (t :: ·) := by
  cases cs with
  | nil => simp [scan] at h
  | cons c cs2 =>
    show lexAux (c :: cs2).length (c :: cs2) = _
    rw [show (c :: cs2).length = cs2.length + 1 from rfl]
    show (match scan (c :: cs2) with
      | none => none
      | some (t?, rest) => (lexAux cs2.length rest).map _) = _
    rw [h]
    have hlt := scan_shrink h
    simp only []
    rw [lexL_of_fuel (by simp at hlt ⊢; omega)]

theorem lex_step_ws {cs : List Char} {rest : List Char}
    (h : scan cs = some (none, rest)) :
    lexL cs = lexL rest := by
  cases cs with
  | nil => simp [scan] at h
  | cons c cs2 =>
    show lexAux (c :: cs2).length (c :: cs2) = _
    rw [show (c :: cs2).length = cs2.length + 1 from rfl]
    show (match scan (c :: cs2) with
      | none => none
      | some (t?, rest) => (lexAux cs2.length rest).map _) = _
    rw [h]
    have hlt := scan_shrink h
    simp only []
    rw [lexL_of_fuel (by simp at hlt ⊢; omega)]
    cases lexL rest with
    | none => rfl
    | some ts => rfl

theorem not_identStart_of_digit {c : Char} (h : c.isDigit = true) :
    isIdentStart c = false := by
  have hb := digit_toNat_bounds h
  simp only [Char.toNat] at hb
  simp [isIdentStart, Char.isAlpha, Char.isUpper, Char.isLower, UInt32.le_def,
    UInt32.lt_def, BitVec.le_def, BitVec.lt_def, UInt32.toNat] at hb ⊢
  omega

theorem digit_ne_quote {c : Char} (h : c.isDigit = true) : ¬c = '"' := by
  intro heq
  subst heq
  simp at h

theorem not_hws_of_digit {c : Char} (h : c.isDigit = true) : isHWS c = false := by
  have hb := digit_toNat_bounds h
  simp [isHWS]
  constructor <;> (intro heq; subst heq; simp at hb)

/-- Scanning at an identifier head takes the maximal identifier run. -/
theorem scan_ident {c : Char} (hc : isIdentStart c = true) (cs2 : List Char) :
    scan (c :: cs2) = some (some (.ident (c :: cs2.takeWhile isIdentCont)),
      cs2.dropWhile isIdentCont) := by
  simp only [scan, hc, if_true]

/-- Scanning at a digit with no fraction part: the input continues with a
newline after the digit run. -/
theorem scan_number_nl {ds : List Char} (hne : ds ≠ [])
    (hdig : ∀ c ∈ ds, c.isDigit = true) (rest : List Char) :
    scan (ds ++ '\n' :: rest) = some (some (.float ds), '\n' :: rest) := by
  cases ds with
  | nil => exact absurd rfl hne
  | cons c tl =>
    have hc : c.isDigit = true := hdig c (by simp)
    have htl : ∀ x ∈ tl, Char.isDigit x = true := fun x hx => hdig x (by simp [hx])
    have h1 : isIdentStart c = false := not_identStart_of_digit hc
    have h2 : ¬c = '"' := digit_ne_quote hc
    rw [List.cons_append]
    simp only [scan, h1, Bool.false_eq_true, if_false, h2, hc, if_true]
    have htake : (c :: (tl ++ '\n' :: rest)).takeWhile Char.isDigit = c :: tl := by
      rw [List.takeWhile_cons, if_pos hc, takeWhile_middle htl (by decide)]
    have hdrop : (c :: (tl ++ '\n' :: rest)).dropWhile Char.isDigit = '\n' :: rest := by
      rw [List.dropWhile_cons]
      simp only [hc, if_true]
      exact dropWhile_middle htl (by decide)
    rw [htake, hdrop]
    rfl

/-- Scanning at a digit with a fraction part: digit run, dot, digit run,
then a newline. -/
theorem scan_number_dot_nl {ds pad : List Char} (hne : ds ≠ [])
    (hdig : ∀ c ∈ ds, c.isDigit = true) (hpne : pad ≠ [])
    (hpdig : ∀ c ∈ pad, c.isDigit = true) (rest : List Char) :
    scan (ds ++ '.' :: pad ++ '\n' :: rest) =
      some (some (.float (ds ++ '.' :: pad)), '\n' :: rest) := by
  cases ds with
  | nil => exact absurd rfl hne
  | cons c tl =>
    cases pad with
    | nil => exact absurd rfl hpne
    | cons d ptl =>
      have hc : c.isDigit = true := hdig c (by simp)
      have htl : ∀ x ∈ tl, Char.isDigit x = true := fun x hx => hdig x (by simp [hx])
      have hd : d.isDigit = true := hpdig d (by simp)
      have hptl : ∀ x ∈ ptl, Char.isDigit x = true := fun x hx => hpdig x (by simp [hx])
      have h1 : isIdentStart c = false := not_identStart_of_digit hc
      have h2 : ¬c = '"' := digit_ne_quote hc
      rw [show ((c :: tl) ++ '.' :: (d :: ptl) ++ '\n' :: rest : List Char) =
        c :: (tl ++ '.' :: d :: (ptl ++ '\n' :: rest)) by simp]
      simp only [scan, h1, Bool.false_eq_true, if_false, h2, hc, if_true]
      have htake : (c :: (tl ++ '.' :: d :: (ptl ++ '\n' :: rest))).takeWhile
          Char.isDigit = c :: tl := by
        rw [List.takeWhile_cons, if_pos hc]
        rw [takeWhile_middle htl (by decide)]
      have hdrop : (c :: (tl ++ '.' :: d :: (ptl ++ '\n' :: rest))).dropWhile
          Char.isDigit = '.' :: d :: (ptl ++ '\n' :: rest) := by
        rw [List.dropWhile_cons]
        simp only [hc, if_true]
        exact dropWhile_middle htl (by decide)
      rw [htake, hdrop]
      simp only [hd, if_true]
      have htake2 : (d :: (ptl ++ '\n' :: rest)).takeWhile Char.isDigit = d :: ptl := by
        rw [List.takeWhile_cons, if_pos hd, takeWhile_middle hptl (by decide)]
      have hdrop2 : (d :: (ptl ++ '\n' :: rest)).dropWhile Char.isDigit
          = '\n' :: rest := by
        rw [List.dropWhile_cons]
        simp only [hd, if_true]
        exact dropWhile_middle hptl (by decide)
      rw [htake2, hdrop2]

/-- The quoted body of a string closes exactly at the appended quote,
whatever follows. -/
theorem scanStr_quoteBody : ∀ (s : List Char) (rest : List Char),
    scanStr (quoteBody s ++ '"' :: rest) = some (quoteBody s, rest) := by
  intro s
  induction s with
  | nil => intro rest; rfl
  | cons c s2 ih =>
    intro rest
    have hqb : quoteBody (c :: s2) = quoteChar c ++ quoteBody s2 := by
      simp [quoteBody]
    rw [hqb]
    by_cases h1 : c = '"'
    · subst h1
      show scanStr ('\\' :: '"' :: (quoteBody s2 ++ '"' :: rest)) = _
      rw [show scanStr ('\\' :: '"' :: (quoteBody s2 ++ '"' :: rest)) =
        (scanStr (quoteBody s2 ++ '"' :: rest)).map
          (fun p => ('\\' :: '"' :: p.1, p.2)) from rfl]
      rw [ih rest]
      simp [quoteChar]
    · by_cases h2 : c = '\\'
      · subst h2
        show scanStr ('\\' :: '\\' :: (quoteBody s2 ++ '"' :: rest)) = _
        rw [show scanStr ('\\' :: '\\' :: (quoteBody s2 ++ '"' :: rest)) =
          (scanStr (quoteBody s2 ++ '"' :: rest)).map
            (fun p => ('\\' :: '\\' :: p.1, p.2)) from rfl]
        rw [ih rest]
        simp [quoteChar]
      · by_cases h3 : c = '\n'
        · subst h3
          show scanStr ('\\' :: 'n' :: (quoteBody s2 ++ '"' :: rest)) = _
          rw [show scanStr ('\\' :: 'n' :: (quoteBody s2 ++ '"' :: rest)) =
            (scanStr (quoteBody s2 ++ '"' :: rest)).map
              (fun p => ('\\' :: 'n' :: p.1, p.2)) from rfl]
          rw [ih rest]
          simp [quoteChar]
        · by_cases h4 : c = '\t'
          · subst h4
            show scanStr ('\\' :: 't' :: (quoteBody s2 ++ '"' :: rest)) = _
            rw [show scanStr ('\\' :: 't' :: (quoteBody s2 ++ '"' :: rest)) =
              (scanStr (quoteBody s2 ++ '"' :: rest)).map
                (fun p => ('\\' :: 't' :: p.1, p.2)) from rfl]
            rw [ih rest]
            simp [quoteChar]
          · by_cases h5 : c = '\r'
            · subst h5
              show scanStr ('\\' :: 'r' :: (quoteBody s2 ++ '"' :: rest)) = _
              rw [show scanStr ('\\' :: 'r' :: (quoteBody s2 ++ '"' :: rest)) =
                (scanStr (quoteBody s2 ++ '"' :: rest)).map
                  (fun p => ('\\' :: 'r' :: p.1, p.2)) from rfl]
              rw [ih rest]
              simp [quoteChar]
            · have hch : quoteChar c = [c] := by
                simp [quoteChar, h1, h2, h3, h4, h5]
              rw [hch]
              rw [show ([c] ++ quoteBody s2) ++ '"' :: rest =
                c :: (quoteBody s2 ++ '"' :: rest) by simp]
              rw [scanStr_step_other _ h1 h2, ih rest]
              simp

/-- `cs` lexes to `ts` as a self-delimited segment: prefixed to any
input, it contributes exactly `ts` to the token stream. -/
def SegLex (cs : List Char) (ts : List Token) : Prop :=
  ∀ rest, lexL (cs ++ rest) = (lexL rest).map (ts ++ ·)

theorem SegLex.empty : SegLex [] [] := by
  intro rest
  cases h : lexL rest <;> simp [h]

theorem SegLex.append {a b : List Char} {ta tb : List Token}
    (ha : SegLex a ta) (hb : SegLex b tb) : SegLex (a ++ b) (ta ++ tb) := by
  intro rest
  rw [List.append_assoc, ha, hb]
  cases lexL rest <;> simp

theorem segLex_newline : SegLex ['\n'] [.newline] := by
  intro rest
  rw [show ['\n'] ++ rest = '\n' :: rest from rfl, lex_step (scan_newline rest)]
  cases lexL rest <;> simp

theorem segLex_blanks (n : Nat) :
    SegLex (List.replicate n '\n') (List.replicate n Token.newline) := by
  induction n with
  | zero => exact SegLex.empty
  | succ m ih =>
    have := SegLex.append segLex_newline ih
    simpa [List.replicate_succ] using this

theorem segLex_comment {h : Char} {tl : List Char} (hh : h = '#' ∨ h = ';')
    (htl : ∀ x ∈ tl, (!(x == '\n')) = true) :
    SegLex ((h :: tl) ++ ['\n']) [.comment (h :: tl), .newline] := by
  intro rest
  rw [show ((h :: tl) ++ ['\n']) ++ rest = h :: (tl ++ '\n' :: rest) by simp]
  have hscan : scan (h :: (tl ++ '\n' :: rest)) =
      some (some (.comment (h :: tl)), '\n' :: rest) := by
    rcases hh with rfl | rfl
    · rw [show scan ('#' :: (tl ++ '\n' :: rest)) =
        some (some (.comment ('#' :: (tl ++ '\n' :: rest).takeWhile
          (fun x => !(x == '\n')))), (tl ++ '\n' :: rest).dropWhile
          (fun x => !(x == '\n'))) from rfl]
      rw [takeWhile_middle htl (by decide), dropWhile_middle htl (by decide)]
    · rw [show scan (';' :: (tl ++ '\n' :: rest)) =
        some (some (.comment (';' :: (tl ++ '\n' :: rest).takeWhile
          (fun x => !(x == '\n')))), (tl ++ '\n' :: rest).dropWhile
          (fun x => !(x == '\n'))) from rfl]
      rw [takeWhile_middle htl (by decide), dropWhile_middle htl (by decide)]
  rw [lex_step hscan, lex_step (scan_newline rest)]
  cases lexL rest <;> simp

theorem segLex_header {c : Char} {tl : List Char} (hc : isIdentStart c = true)
    (htl : ∀ x ∈ tl, isIdentCont x = true) :
    SegLex ('[' :: (c :: tl) ++ [']', '\n'])
      [.punct '[', .ident (c :: tl), .punct ']', .newline] := by
  intro rest
  rw [show ('[' :: (c :: tl) ++ [']', '\n']) ++ rest =
    '[' :: c :: (tl ++ ']' :: '\n' :: rest) by simp]
  have hsc1 : scan ('[' :: c :: (tl ++ ']' :: '\n' :: rest)) =
      some (some (.punct '['), c :: (tl ++ ']' :: '\n' :: rest)) := rfl
  have hsc2 : scan (c :: (tl ++ ']' :: '\n' :: rest)) =
      some (some (.ident (c :: tl)), ']' :: '\n' :: rest) := by
    rw [scan_ident hc, takeWhile_middle htl (by decide),
      dropWhile_middle htl (by decide)]
  have hsc3 : scan (']' :: '\n' :: rest) =
      some (some (.punct ']'), '\n' :: rest) := rfl
  rw [lex_step hsc1, lex_step hsc2, lex_step hsc3, lex_step (scan_newline rest)]
  cases lexL rest <;> simp

theorem natChars_ne_nil (n : Nat) : natChars n ≠ [] := by
  have := natChars_len_pos n
  intro hnil
  rw [hnil] at this
  simp at this

theorem formatDec_head_digit (d : Dec) :
    ∀ x rest2, formatDec d = x :: rest2 → x.isDigit = true := by
  obtain ⟨m, e⟩ := d
  cases e with
  | zero =>
    intro x rest2 hx
    exact natChars_digits m x (by rw [show natChars m = formatDec ⟨m, 0⟩ from rfl, hx]; simp)
  | succ e2 =>
    intro x rest2 hx
    have hx2 : natChars (m / 10 ^ (e2 + 1)) ++ '.' ::
        padChars (e2 + 1) (m % 10 ^ (e2 + 1)) = x :: rest2 := hx
    cases hnc : natChars (m / 10 ^ (e2 + 1)) with
    | nil => exact absurd hnc (natChars_ne_nil _)
    | cons y yl =>
      rw [hnc] at hx2
      simp at hx2
      obtain ⟨rfl, -⟩ := hx2
      exact natChars_digits _ y (by rw [hnc]; simp)

theorem valueChars_ne_nil (v : Value) : valueChars v ≠ [] := by
  cases v with
  | string s => simp [valueChars, quote]
  | number d =>
    obtain ⟨m, e⟩ := d
    cases e with
    | zero => exact natChars_ne_nil m
    | succ e2 =>
      show natChars _ ++ _ ≠ []
      simp

theorem isHWS_head_value {v : Value} (x : Char) (rest2 : List Char)
    (hx : valueChars v = x :: rest2) : isHWS x = false := by
  cases v with
  | string s =>
    simp only [valueChars, quote] at hx
    cases hx
    decide
  | number d =>
    exact not_hws_of_digit (formatDec_head_digit d x rest2 hx)

theorem segLex_keyvalue {c : Char} {tlk : List Char} (v : Value)
    (hc : isIdentStart c = true) (htlk : ∀ x ∈ tlk, isIdentCont x = true) :
    SegLex ((c :: tlk) ++ ' ' :: '=' :: ' ' :: valueChars v ++ ['\n'])
      [.ident (c :: tlk), .punct '=', tokensOfValue v, .newline] := by
  intro rest
  rw [show ((c :: tlk) ++ ' ' :: '=' :: ' ' :: valueChars v ++ ['\n']) ++ rest =
    c :: (tlk ++ ' ' :: '=' :: ' ' :: (valueChars v ++ '\n' :: rest)) by simp]
  have hsc1 : scan (c :: (tlk ++ ' ' :: '=' :: ' ' ::
      (valueChars v ++ '\n' :: rest))) = some (some (.ident (c :: tlk)),
      ' ' :: '=' :: ' ' :: (valueChars v ++ '\n' :: rest)) := by
    rw [scan_ident hc, takeWhile_middle htlk (by decide),
      dropWhile_middle htlk (by decide)]
  rw [lex_step hsc1]
  have hsc2 : scan (' ' :: '=' :: ' ' :: (valueChars v ++ '\n' :: rest)) =
      some (none, '=' :: ' ' :: (valueChars v ++ '\n' :: rest)) := rfl
  rw [lex_step_ws hsc2]
  have hsc3 : scan ('=' :: ' ' :: (valueChars v ++ '\n' :: rest)) =
      some (some (.punct '='), ' ' :: (valueChars v ++ '\n' :: rest)) := rfl
  rw [lex_step hsc3]
  obtain ⟨x, r2, hxr⟩ : ∃ x r2, valueChars v = x :: r2 := by
    cases hvc : valueChars v with
    | nil => exact absurd hvc (valueChars_ne_nil v)
    | cons a b => exact ⟨a, b, rfl⟩
  have hws : (valueChars v ++ '\n' :: rest).dropWhile isHWS =
      valueChars v ++ '\n' :: rest := by
    conv_lhs => rw [hxr]
    rw [List.cons_append, List.dropWhile_cons, isHWS_head_value x r2 hxr]
    simp [hxr]
  have hsc4 : scan (' ' :: (valueChars v ++ '\n' :: rest)) =
      some (none, valueChars v ++ '\n' :: rest) := by
    rw [show scan (' ' :: (valueChars v ++ '\n' :: rest)) =
      some (none, (valueChars v ++ '\n' :: rest).dropWhile isHWS) from rfl, hws]
  rw [lex_step_ws hsc4]
  have hval : lexL (valueChars v ++ '\n' :: rest) =
      (lexL rest).map (fun ts => tokensOfValue v :: Token.newline :: ts) := by
    cases v with
    | string s =>
      have hlist : valueChars (.string s) ++ '\n' :: rest =
          '"' :: (quoteBody s.data ++ '"' :: '\n' :: rest) := by
        simp [valueChars, quote]
      rw [hlist]
      have hsc5 : scan ('"' :: (quoteBody s.data ++ '"' :: '\n' :: rest)) =
          some (some (.str (quoteBody s.data)), '\n' :: rest) := by
        rw [show scan ('"' :: (quoteBody s.data ++ '"' :: '\n' :: rest)) =
          (scanStr (quoteBody s.data ++ '"' :: '\n' :: rest)).map
            (fun p => (some (.str p.1), p.2)) from rfl]
        rw [scanStr_quoteBody]
        rfl
      rw [lex_step hsc5, lex_step (scan_newline rest)]
      cases lexL rest <;> simp [tokensOfValue]
    | number d =>
      obtain ⟨m, e⟩ := d
      cases e with
      | zero =>
        have hsc5 : scan (natChars m ++ '\n' :: rest) =
            some (some (.float (natChars m)), '\n' :: rest) :=
          scan_number_nl (natChars_ne_nil m) (natChars_digits m) rest
        rw [show valueChars (.number ⟨m, 0⟩) = natChars m from rfl]
        rw [lex_step hsc5, lex_step (scan_newline rest)]
        cases lexL rest <;> simp [tokensOfValue, formatDec]
      | succ e2 =>
        have hpadne : padChars (e2 + 1) (m % 10 ^ (e2 + 1)) ≠ [] := by
          have hl := padChars_length (padLen_le (e := e2) m)
          intro hnil
          rw [hnil] at hl
          simp at hl
        have hsc5 := scan_number_dot_nl (natChars_ne_nil (m / 10 ^ (e2 + 1)))
          (natChars_digits _) hpadne (padChars_digits _ _) rest
        rw [show valueChars (.number ⟨m, e2 + 1⟩) ++ '\n' :: rest =
          (natChars (m / 10 ^ (e2 + 1)) ++ '.' ::
            padChars (e2 + 1) (m % 10 ^ (e2 + 1))) ++ '\n' :: rest from rfl]
        rw [lex_step hsc5, lex_step (scan_newline rest)]
        cases lexL rest <;> simp [tokensOfValue, formatDec]
  rw [hval]
  cases lexL rest <;> simp

theorem map_const_newline (l : List String) :
    l.map (fun _ => '\n') = List.replicate l.length '\n' := by
  induction l with
  | nil => rfl
  | cons x xs ih => simp [List.replicate_succ, ih]

theorem identOK_spec {s : String} (h : identOK s = true) :
    ∃ c tl, s.data = c :: tl ∧ isIdentStart c = true ∧
      ∀ x ∈ tl, isIdentCont x = true := by
  unfold identOK at h
  cases hd : s.data with
  | nil => rw [hd] at h; simp at h
  | cons c tl =>
    rw [hd] at h
    simp only [Bool.and_eq_true, List.all_eq_true] at h
    exact ⟨c, tl, rfl, h.1, h.2⟩

theorem commentOK_spec {s : String} (h : commentOK s = true) :
    ∃ c tl, s.data = c :: tl ∧ (c = '#' ∨ c = ';') ∧
      ∀ x ∈ tl, (!(x == '\n')) = true := by
  unfold commentOK at h
  cases hd : s.data with
  | nil => rw [hd] at h; simp at h
  | cons c tl =>
    rw [hd] at h
    simp only [Bool.and_eq_true, Bool.or_eq_true, beq_iff_eq, List.all_eq_true] at h
    exact ⟨c, tl, rfl, h.1, h.2⟩

theorem segLex_comments (cmts : List String) (h : ∀ s ∈ cmts, commentOK s = true) :
    SegLex ((cmts.map (fun c => c.data ++ ['\n'])).flatten)
      ((cmts.map (fun c => [Token.comment c.data, Token.newline])).flatten) := by
  induction cmts with
  | nil => simpa using SegLex.empty
  | cons s rest ih =>
    obtain ⟨c, tl, hsd, hc, htl⟩ := commentOK_spec (h s (by simp))
    have h1 : SegLex (s.data ++ ['\n']) [.comment s.data, .newline] := by
      rw [hsd]
      exact segLex_comment hc htl
    have h2 := h1.append (ih (fun x hx => h x (by simp [hx])))
    simpa using h2

theorem segLex_prop {p : Property} (hp : propOK p = true) :
    SegLex (renderProp p) (tokensOfProp p) := by
  have hp2 : ((identOK p.Key = true ∧ ∀ s ∈ p.Comments, commentOK s = true) ∧
      valueOK p.Value = true) ∧ ∀ b ∈ p.BlankLines, b = "\n" := by
    simpa [propOK, Bool.and_eq_true, List.all_eq_true] using hp
  obtain ⟨⟨⟨hkey, hcmts⟩, -⟩, -⟩ := hp2
  obtain ⟨c, tlk, hkd, hc, htlk⟩ := identOK_spec hkey
  have hA := segLex_comments p.Comments hcmts
  have hline := segLex_keyvalue (v := p.Value) hc htlk
  have hB := segLex_blanks p.BlankLines.length
  have hall := hA.append (hline.append hB)
  have hchars : renderProp p =
      (p.Comments.map (fun c => c.data ++ ['\n'])).flatten ++
      (((c :: tlk) ++ ' ' :: '=' :: ' ' :: valueChars p.Value ++ ['\n']) ++
        List.replicate p.BlankLines.length '\n') := by
    unfold renderProp
    rw [hkd, map_const_newline]
    simp
  have htoks : tokensOfProp p =
      (p.Comments.map (fun s => [Token.comment s.data, Token.newline])).flatten ++
      ([Token.ident (c :: tlk), Token.punct '=', tokensOfValue p.Value,
        Token.newline] ++ List.replicate p.BlankLines.length Token.newline) := by
    unfold tokensOfProp
    rw [hkd]
    simp
  rw [hchars, htoks]
  exact hall

theorem segLex_props (ps : List Property) (h : ∀ p ∈ ps, propOK p = true) :
    SegLex ((ps.map renderProp).flatten) ((ps.map tokensOfProp).flatten) := by
  induction ps with
  | nil => simpa using SegLex.empty
  | cons p rest ih =>
    have h1 := segLex_prop (h p (by simp))
    have h2 := h1.append (ih (fun x hx => h x (by simp [hx])))
    simpa using h2

theorem segLex_section {s : Section} (hs : sectionOK s = true) :
    SegLex (renderSection s) (tokensOfSection s) := by
  have hs2 : ((identOK s.Name = true ∧ ∀ x ∈ s.Comments, commentOK x = true) ∧
      (∀ p ∈ s.Properties, propOK p = true)) ∧ ∀ b ∈ s.BlankLines, b = "\n" := by
    simpa [sectionOK, Bool.and_eq_true, List.all_eq_true] using hs
  obtain ⟨⟨⟨hnm, hcmts⟩, hprops⟩, -⟩ := hs2
  obtain ⟨c, tln, hnd, hc, htln⟩ := identOK_spec hnm
  have hA := segLex_comments s.Comments hcmts
  have hH := segLex_header hc htln
  have hB := segLex_blanks s.BlankLines.length
  have hP := segLex_props s.Properties hprops
  have hall := hA.append (hH.append (hB.append hP))
  have hchars : renderSection s =
      (s.Comments.map (fun c => c.data ++ ['\n'])).flatten ++
      (('[' :: (c :: tln) ++ [']', '\n']) ++
        (List.replicate s.BlankLines.length '\n' ++
          (s.Properties.map renderProp).flatten)) := by
    unfold renderSection
    rw [hnd, map_const_newline]
    simp
  have htoks : tokensOfSection s =
      (s.Comments.map (fun x => [Token.comment x.data, Token.newline])).flatten ++
      ([Token.punct '[', Token.ident (c :: tln), Token.punct ']', Token.newline] ++
        (List.replicate s.BlankLines.length Token.newline ++
          (s.Properties.map tokensOfProp).flatten)) := by
    unfold tokensOfSection
    rw [hnd]
    simp
  rw [hchars, htoks]
  exact hall

theorem segLex_sections (ss : List Section) (h : ∀ s ∈ ss, sectionOK s = true) :
    SegLex ((ss.map renderSection).flatten) ((ss.map tokensOfSection).flatten) := by
  induction ss with
  | nil => simpa using SegLex.empty
  | cons s rest ih =>
    have h1 := segLex_section (h s (by simp))
    have h2 := h1.append (ih (fun x hx => h x (by simp [hx])))
    simpa using h2

/-- The encoder output of a canonical document lexes to exactly the
expected token stream. -/
theorem lexL_render {t : AST} (hp : ∀ p ∈ t.Properties, propOK p = true)
    (hs : ∀ s ∈ t.Sections, sectionOK s = true) :
    lexL (renderAST t) = some (tokensOfAST t) := by
  have hseg : SegLex (renderAST t) (tokensOfAST t) :=
    (segLex_props t.Properties hp).append (segLex_sections t.Sections hs)
  have := hseg []
  rw [List.append_nil] at this
  rw [this]
  simp
  rfl

/-! ## Token-level parsing of canonical token streams -/

theorem unquote_step_other {c : Char} (rest : List Char)
    (hb : ¬c = '\\') (hn : ¬c = '\n') :
    unquote (c :: rest) = (unquote rest).map (c :: ·) := by
  conv_lhs => rw [unquote.eq_def]
  simp [hb, hn]

theorem unquote_quoteBody : ∀ s : List Char, unquote (quoteBody s) = some s := by
  intro s
  induction s with
  | nil => rfl
  | cons c s2 ih =>
    have hqb : quoteBody (c :: s2) = quoteChar c ++ quoteBody s2 := by
      simp [quoteBody]
    rw [hqb]
    by_cases h1 : c = '"'
    · subst h1
      rw [show (quoteChar '"' ++ quoteBody s2 : List Char) =
        '\\' :: '"' :: quoteBody s2 from rfl]
      rw [show unquote ('\\' :: '"' :: quoteBody s2) =
        (unquote (quoteBody s2)).map ('"' :: ·) from rfl, ih]
      rfl
    · by_cases h2 : c = '\\'
      · subst h2
        rw [show (quoteChar '\\' ++ quoteBody s2 : List Char) =
          '\\' :: '\\' :: quoteBody s2 from rfl]
        rw [show unquote ('\\' :: '\\' :: quoteBody s2) =
          (unquote (quoteBody s2)).map ('\\' :: ·) from rfl, ih]
        rfl
      · by_cases h3 : c = '\n'
        · subst h3
          rw [show (quoteChar '\n' ++ quoteBody s2 : List Char) =
            '\\' :: 'n' :: quoteBody s2 from rfl]
          rw [show unquote ('\\' :: 'n' :: quoteBody s2) =
            (unquote (quoteBody s2)).map ('\n' :: ·) from rfl, ih]
          rfl
        · by_cases h4 : c = '\t'
          · subst h4
            rw [show (quoteChar '\t' ++ quoteBody s2 : List Char) =
              '\\' :: 't' :: quoteBody s2 from rfl]
            rw [show unquote ('\\' :: 't' :: quoteBody s2) =
              (unquote (quoteBody s2)).map ('\t' :: ·) from rfl, ih]
            rfl
          · by_cases h5 : c = '\r'
            · subst h5
              rw [show (quoteChar '\r' ++ quoteBody s2 : List Char) =
                '\\' :: 'r' :: quoteBody s2 from rfl]
              rw [show unquote ('\\' :: 'r' :: quoteBody s2) =
                (unquote (quoteBody s2)).map ('\r' :: ·) from rfl, ih]
              rfl
            · have hch : quoteChar c = [c] := by
                simp [quoteChar, h1, h2, h3, h4, h5]
              rw [hch, show ([c] ++ quoteBody s2 : List Char) =
                c :: quoteBody s2 by simp]
              rw [unquote_step_other _ h2 h3, ih]
              rfl

theorem parseValue_tokens {v : Value} (hv : valueOK v = true) (rest : List Token) :
    parseValue (tokensOfValue v :: rest) = some (v, rest) := by
  cases v with
  | string s =>
    rw [show tokensOfValue (.string s) = .str (quoteBody s.data) from rfl]
    rw [show parseValue (.str (quoteBody s.data) :: rest) =
      (unquote (quoteBody s.data)).map
        (fun s2 => (.string (String.mk s2), rest)) from rfl]
    rw [unquote_quoteBody]
    rfl
  | number d =>
    have hnd : normDec d = d := by simpa [valueOK] using hv
    rw [show tokensOfValue (.number d) = .float (formatDec d) from rfl]
    rw [show parseValue (.float (formatDec d) :: rest) =
      some (.number (parseDecChars (formatDec d)), rest) from rfl]
    rw [formatDec_roundtrip hnd]

/-- The token list does not begin with a newline token. -/
def notNL (ts : List Token) : Prop := ∀ r2, ts ≠ Token.newline :: r2

theorem parseComments_skip (ts : List Token)
    (hts : ∀ c r2, ts ≠ Token.comment c :: Token.newline :: r2) :
    parseComments ts = ([], ts) := by
  cases ts with
  | nil => rfl
  | cons t1 tail =>
    cases t1 with
    | comment c =>
      cases tail with
      | nil => rfl
      | cons t2 t3 =>
        cases t2 with
        | newline => exact absurd rfl (hts c t3)
        | ident s => rfl
        | str r => rfl
        | float f => rfl
        | punct pc => rfl
        | comment c2 => rfl
    | ident s => rfl
    | str r => rfl
    | float f => rfl
    | punct pc => rfl
    | newline => rfl

theorem parseComments_pairs (cmts : List String) {ts : List Token}
    (hts : ∀ c r2, ts ≠ Token.comment c :: Token.newline :: r2) :
    parseComments
      ((cmts.map (fun c => [Token.comment c.data, Token.newline])).flatten ++ ts)
      = (cmts, ts) := by
  induction cmts with
  | nil => simpa using parseComments_skip ts hts
  | cons s rest ih =>
    rw [show (((s :: rest).map
        (fun c => [Token.comment c.data, Token.newline])).flatten ++ ts) =
      Token.comment s.data :: Token.newline ::
        ((rest.map (fun c => [Token.comment c.data, Token.newline])).flatten ++ ts)
      by simp]
    rw [show parseComments (Token.comment s.data :: Token.newline ::
        ((rest.map (fun c => [Token.comment c.data, Token.newline])).flatten ++ ts)) =
      (String.mk s.data ::
        (parseComments ((rest.map
          (fun c => [Token.comment c.data, Token.newline])).flatten ++ ts)).1,
        (parseComments ((rest.map
          (fun c => [Token.comment c.data, Token.newline])).flatten ++ ts)).2)
      from rfl]
    rw [ih]

theorem parseNewlines_suffix : ∀ ts : List Token,
    (parseNewlines ts).2.length ≤ ts.length := by
  intro ts
  induction ts with
  | nil => simp [parseNewlines]
  | cons t tail ih =>
    cases t with
    | newline =>
      rw [show parseNewlines (Token.newline :: tail) =
        ((parseNewlines tail).1 + 1, (parseNewlines tail).2) from rfl]
      simp
      omega
    | ident s => simp [parseNewlines]
    | str r => simp [parseNewlines]
    | float f => simp [parseNewlines]
    | punct c => simp [parseNewlines]
    | comment c => simp [parseNewlines]

theorem parseComments_suffix_aux : ∀ (n : Nat) (ts : List Token), ts.length ≤ n →
    (parseComments ts).2.length ≤ ts.length := by
  intro n
  induction n with
  | zero =>
    intro ts h
    have : ts = [] := List.length_eq_zero.mp (by omega)
    subst this
    simp [parseComments]
  | succ m ih =>
    intro ts h
    cases ts with
    | nil => simp [parseComments]
    | cons t1 tail =>
      cases t1 with
      | comment c =>
        cases tail with
        | nil => simp [parseComments]
        | cons t2 t3 =>
          cases t2 with
          | newline =>
            rw [show parseComments (Token.comment c :: Token.newline :: t3) =
              (String.mk c :: (parseComments t3).1, (parseComments t3).2) from rfl]
            have := ih t3 (by simp at h ⊢; omega)
            simp at this ⊢
            omega
          | ident s => simp [parseComments]
          | str r => simp [parseComments]
          | float f => simp [parseComments]
          | punct pc => simp [parseComments]
          | comment c2 => simp [parseComments]
      | ident s => simp [parseComments]
      | str r => simp [parseComments]
      | float f => simp [parseComments]
      | punct pc => simp [parseComments]
      | newline => simp [parseComments]

theorem parseComments_suffix (ts : List Token) :
    (parseComments ts).2.length ≤ ts.length :=
  parseComments_suffix_aux ts.length ts le_rfl

theorem parseValue_shrink {ts : List Token} {v : Value} {rest : List Token}
    (h : parseValue ts = some (v, rest)) : rest.length < ts.length := by
  cases ts with
  | nil => simp [parseValue] at h
  | cons t tail =>
    cases t with
    | str raw =>
      simp only [parseValue] at h
      cases hu : unquote raw with
      | none => rw [hu] at h; simp at h
      | some u =>
        rw [hu] at h
        simp at h
        obtain ⟨-, rfl⟩ := h
        simp
    | float f =>
      simp only [parseValue] at h
      simp at h
      obtain ⟨-, rfl⟩ := h
      simp
    | ident s => simp [parseValue] at h
    | punct c => simp [parseValue] at h
    | comment c => simp [parseValue] at h
    | newline => simp [parseValue] at h

theorem parseProperty_shrink {ts : List Token} {p : Property} {rest : List Token}
    (h : parseProperty ts = some (p, rest)) : rest.length < ts.length := by
  rcases hc : parseComments ts with ⟨cmts, ts1⟩
  have hts1 : ts1.length ≤ ts.length := by
    have := parseComments_suffix ts
    rw [hc] at this
    exact this
  unfold parseProperty at h
  rw [hc] at h
  cases ts1 with
  | nil => simp at h
  | cons t1 tail1 =>
    cases t1 with
    | ident k =>
      cases tail1 with
      | nil => simp at h
      | cons t2 ts2 =>
        cases t2 with
        | punct pc =>
          by_cases hpc : pc = '='
          · subst hpc
            have h2 : ((match parseValue ts2 with
              | none => none
              | some (v, ts3) =>
                match ts3 with
                | Token.newline :: ts4 =>
                  some (Property.mk cmts (String.mk k) v
                    (List.replicate (parseNewlines ts4).1 "\n"),
                    (parseNewlines ts4).2)
                | _ => some (Property.mk cmts (String.mk k) v [], ts3)) :
              Option (Property × List Token)) = some (p, rest) := h
            cases hv : parseValue ts2 with
            | none => rw [hv] at h2; simp at h2
            | some pv =>
              obtain ⟨v, ts3⟩ := pv
              rw [hv] at h2
              have hv3 : ts3.length < ts2.length := parseValue_shrink hv
              cases ts3 with
              | nil =>
                simp at h2
                obtain ⟨-, rfl⟩ := h2
                simp at hts1
                omega
              | cons t3 ts4 =>
                cases t3 with
                | newline =>
                  simp at h2
                  obtain ⟨-, rfl⟩ := h2
                  have h4 := parseNewlines_suffix ts4
                  simp at hts1 hv3 ⊢
                  omega
                | ident s =>
                  simp at h2
                  obtain ⟨-, rfl⟩ := h2
                  simp at hts1 hv3 ⊢
                  omega
                | str r =>
                  simp at h2
                  obtain ⟨-, rfl⟩ := h2
                  simp at hts1 hv3 ⊢
                  omega
                | float f =>
                  simp at h2
                  obtain ⟨-, rfl⟩ := h2
                  simp at hts1 hv3 ⊢
                  omega
                | punct c2 =>
                  simp at h2
                  obtain ⟨-, rfl⟩ := h2
                  simp at hts1 hv3 ⊢
                  omega
                | comment c2 =>
                  simp at h2
                  obtain ⟨-, rfl⟩ := h2
                  simp at hts1 hv3 ⊢
                  omega
          · simp [hpc] at h
        | ident s => simp at h
        | str r => simp at h
        | float f => simp at h
        | comment c2 => simp at h
        | newline => simp at h
    | punct pc => simp at h
    | str r => simp at h
    | float f => simp at h
    | comment c2 => simp at h
    | newline => simp at h

theorem parseProps_congr : ∀ (f1 : Nat) {f2 : Nat} {ts : List Token},
    ts.length ≤ f1 → ts.length ≤ f2 → parseProps f1 ts = parseProps f2 ts := by
  intro f1
  induction f1 with
  | zero =>
    intro f2 ts h1 h2
    have : ts = [] := List.length_eq_zero.mp (by omega)
    subst this
    cases f2 with
    | zero => rfl
    | succ g2 => rfl
  | succ g1 ih =>
    intro f2 ts h1 h2
    cases f2 with
    | zero =>
      have : ts = [] := List.length_eq_zero.mp (by omega)
      subst this
      rfl
    | succ g2 =>
      show (match parseProperty ts with
        | none => ([], ts)
        | some (p, ts1) =>
          let r := parseProps g1 ts1
          (p :: r.1, r.2)) =
        (match parseProperty ts with
        | none => ([], ts)
        | some (p, ts1) =>
          let r := parseProps g2 ts1
          (p :: r.1, r.2))
      cases hp : parseProperty ts with
      | none => rfl
      | some pair =>
        obtain ⟨p, ts1⟩ := pair
        have hlt := parseProperty_shrink hp
        simp only []
        rw [@ih g2 ts1 (by omega) (by omega)]

theorem parseNewlines_skip {ts : List Token} (h : notNL ts) :
    parseNewlines ts = (0, ts) := by
  cases ts with
  | nil => rfl
  | cons t tail =>
    cases t with
    | newline => exact absurd rfl (h tail)
    | ident s => rfl
    | str r => rfl
    | float f => rfl
    | punct c => rfl
    | comment c => rfl

theorem tokensOfProp_head (p : Property) (X : List Token) :
    notNL (tokensOfProp p ++ X) ∧
    (∀ c r2, tokensOfProp p ++ X ≠ Token.comment c :: Token.newline :: r2 →
      True) := by
  refine ⟨?_, fun _ _ _ => trivial⟩
  intro r2 h
  cases hc : p.Comments with
  | nil => simp [tokensOfProp, hc] at h
  | cons s cs => simp [tokensOfProp, hc] at h

theorem notNL_prop (p : Property) (X : List Token) :
    notNL (tokensOfProp p ++ X) := (tokensOfProp_head p X).1

theorem notNL_sectionTok (s : Section) (X : List Token) :
    notNL (tokensOfSection s ++ X) := by
  intro r2 h
  cases hc : s.Comments with
  | nil => simp [tokensOfSection, hc] at h
  | cons c cs => simp [tokensOfSection, hc] at h

theorem notNL_propsRest (ps : List Property) {rest : List Token}
    (h : notNL rest) : notNL ((ps.map tokensOfProp).flatten ++ rest) := by
  cases ps with
  | nil => simpa using h
  | cons p ps2 =>
    intro r2 hr
    rw [show ((p :: ps2).map tokensOfProp).flatten ++ rest =
      tokensOfProp p ++ ((ps2.map tokensOfProp).flatten ++ rest) by simp] at hr
    exact notNL_prop p _ r2 hr

theorem notNL_sectionsRest (ss : List Section) :
    notNL ((ss.map tokensOfSection).flatten) := by
  cases ss with
  | nil => intro r2 h; simp at h
  | cons s ss2 =>
    intro r2 hr
    rw [show ((s :: ss2).map tokensOfSection).flatten =
      tokensOfSection s ++ ((ss2.map tokensOfSection).flatten) by simp] at hr
    exact notNL_sectionTok s _ r2 hr

theorem parseProperty_sections_none (s : Section) (X : List Token) :
    parseProperty (tokensOfSection s ++ X) = none := by
  unfold parseProperty
  rw [show tokensOfSection s ++ X =
    ((s.Comments.map (fun c => [Token.comment c.data, Token.newline])).flatten ++
      (Token.punct '[' :: Token.ident s.Name.data :: Token.punct ']' ::
        Token.newline :: (List.replicate s.BlankLines.length Token.newline ++
          ((s.Properties.map tokensOfProp).flatten ++ X)))) by simp [tokensOfSection]]
  rw [parseComments_pairs s.Comments (by intro c r2 h; simp at h)]

theorem parseProperty_sectionsFlat_none (ss : List Section) :
    parseProperty ((ss.map tokensOfSection).flatten) = none := by
  cases ss with
  | nil => rfl
  | cons s ss2 =>
    rw [show ((s :: ss2).map tokensOfSection).flatten =
      tokensOfSection s ++ ((ss2.map tokensOfSection).flatten) by simp]
    exact parseProperty_sections_none s _

theorem parseProperty_tokens {p : Property} (hp : propOK p = true)
    {rest : List Token} (hrest : notNL rest) :
    parseProperty (tokensOfProp p ++ rest) = some (p, rest) := by
  have hp2 : ((identOK p.Key = true ∧ ∀ s ∈ p.Comments, commentOK s = true) ∧
      valueOK p.Value = true) ∧ ∀ b ∈ p.BlankLines, b = "\n" := by
    simpa [propOK, Bool.and_eq_true, List.all_eq_true] using hp
  obtain ⟨⟨⟨-, -⟩, hval⟩, hbl⟩ := hp2
  have hrep : List.replicate p.BlankLines.length "\n" = p.BlankLines :=
    (List.eq_replicate_of_mem hbl).symm
  unfold parseProperty
  rw [show tokensOfProp p ++ rest =
    ((p.Comments.map (fun c => [Token.comment c.data, Token.newline])).flatten ++
      (Token.ident p.Key.data :: Token.punct '=' :: tokensOfValue p.Value ::
        Token.newline :: (List.replicate p.BlankLines.length Token.newline ++
          rest))) by simp [tokensOfProp]]
  rw [parseComments_pairs p.Comments (by intro c r2 h; simp at h)]
  show (match parseValue (tokensOfValue p.Value :: Token.newline ::
      (List.replicate p.BlankLines.length Token.newline ++ rest)) with
    | none => none
    | some (v, ts3) =>
      match ts3 with
      | Token.newline :: ts4 =>
        some (Property.mk p.Comments (String.mk p.Key.data) v
          (List.replicate (parseNewlines ts4).1 "\n"), (parseNewlines ts4).2)
      | _ => some (Property.mk p.Comments (String.mk p.Key.data) v [], ts3)) =
    some (p, rest)
  rw [parseValue_tokens hval]
  show some (Property.mk p.Comments (String.mk p.Key.data) p.Value
    (List.replicate (parseNewlines (List.replicate p.BlankLines.length
      Token.newline ++ rest)).1 "\n"),
    (parseNewlines (List.replicate p.BlankLines.length Token.newline ++ rest)).2) =
    some (p, rest)
  rw [parseNewlines_replicate p.BlankLines.length rest hrest]
  rw [show (String.mk p.Key.data) = p.Key from rfl, hrep]

theorem tokensOfProp_len_pos (p : Property) : 1 ≤ (tokensOfProp p).length := by
  simp [tokensOfProp]
  omega

theorem parseProps_tokens : ∀ (ps : List Property) {rest : List Token},
    notNL rest → parseProperty rest = none →
    (∀ p ∈ ps, propOK p = true) →
    ∀ fuel, ((ps.map tokensOfProp).flatten ++ rest).length ≤ fuel →
      parseProps fuel ((ps.map tokensOfProp).flatten ++ rest) = (ps, rest) := by
  intro ps
  induction ps with
  | nil =>
    intro rest hrest hrest2 hps fuel hf
    simp only [List.map_nil, List.flatten_nil, List.nil_append]
    cases fuel with
    | zero => rfl
    | succ g =>
      show (match parseProperty rest with
        | none => ([], rest)
        | some (p, ts1) =>
          let r := parseProps g ts1
          (p :: r.1, r.2)) = ([], rest)
      rw [hrest2]
  | cons p ps2 ih =>
    intro rest hrest hrest2 hps fuel hf
    have hassoc : (((p :: ps2).map tokensOfProp).flatten ++ rest) =
        tokensOfProp p ++ ((ps2.map tokensOfProp).flatten ++ rest) := by simp
    have hnl2 : notNL ((ps2.map tokensOfProp).flatten ++ rest) :=
      notNL_propsRest ps2 hrest
    have hpp := parseProperty_tokens (hps p (by simp)) hnl2
    have hlen := tokensOfProp_len_pos p
    rw [hassoc] at hf ⊢
    cases fuel with
    | zero =>
      exfalso
      rw [List.length_append] at hf
      omega
    | succ g =>
      show (match parseProperty (tokensOfProp p ++
          ((ps2.map tokensOfProp).flatten ++ rest)) with
        | none => ([], tokensOfProp p ++ ((ps2.map tokensOfProp).flatten ++ rest))
        | some (q, ts1) =>
          let r := parseProps g ts1
          (q :: r.1, r.2)) = (p :: ps2, rest)
      rw [hpp]
      have hinner : parseProps g ((ps2.map tokensOfProp).flatten ++ rest) =
          (ps2, rest) := by
        apply ih hrest hrest2 (fun q hq => hps q (by simp [hq]))
        simp at hf ⊢
        omega
      show (p :: (parseProps g ((ps2.map tokensOfProp).flatten ++ rest)).1,
        (parseProps g ((ps2.map tokensOfProp).flatten ++ rest)).2) = (p :: ps2, rest)
      rw [hinner]

theorem parseSection_tokens {s : Section} (hs : sectionOK s = true)
    {rest : List Token} (hrest : notNL rest) (hrestP : parseProperty rest = none) :
    parseSection (tokensOfSection s ++ rest) = some (s, rest) := by
  have hs2 : ((identOK s.Name = true ∧ ∀ x ∈ s.Comments, commentOK x = true) ∧
      (∀ p ∈ s.Properties, propOK p = true)) ∧ ∀ b ∈ s.BlankLines, b = "\n" := by
    simpa [sectionOK, Bool.and_eq_true, List.all_eq_true] using hs
  obtain ⟨⟨⟨-, -⟩, hprops⟩, hbl⟩ := hs2
  have hrep : List.replicate s.BlankLines.length "\n" = s.BlankLines :=
    (List.eq_replicate_of_mem hbl).symm
  unfold parseSection
  rw [show tokensOfSection s ++ rest =
    ((s.Comments.map (fun c => [Token.comment c.data, Token.newline])).flatten ++
      (Token.punct '[' :: Token.ident s.Name.data :: Token.punct ']' ::
        Token.newline :: (List.replicate s.BlankLines.length Token.newline ++
          ((s.Properties.map tokensOfProp).flatten ++ rest)))) by simp [tokensOfSection]]
  rw [parseComments_pairs s.Comments (by intro c r2 h; simp at h)]
  have hnl3 : parseNewlines (List.replicate s.BlankLines.length Token.newline ++
      ((s.Properties.map tokensOfProp).flatten ++ rest)) =
      (s.BlankLines.length, (s.Properties.map tokensOfProp).flatten ++ rest) :=
    parseNewlines_replicate _ _ (notNL_propsRest s.Properties hrest)
  have hps := parseProps_tokens s.Properties hrest hrestP hprops
    ((s.Properties.map tokensOfProp).flatten ++ rest).length le_rfl
  show some (Section.mk s.Comments (String.mk s.Name.data)
      (List.replicate (parseNewlines (List.replicate s.BlankLines.length
        Token.newline ++ ((s.Properties.map tokensOfProp).flatten ++ rest))).1 "\n")
      (parseProps (parseNewlines (List.replicate s.BlankLines.length
        Token.newline ++ ((s.Properties.map tokensOfProp).flatten ++
        rest))).2.length (parseNewlines (List.replicate s.BlankLines.length
        Token.newline ++ ((s.Properties.map tokensOfProp).flatten ++
        rest))).2).1,
      (parseProps (parseNewlines (List.replicate s.BlankLines.length
        Token.newline ++ ((s.Properties.map tokensOfProp).flatten ++
        rest))).2.length (parseNewlines (List.replicate s.BlankLines.length
        Token.newline ++ ((s.Properties.map tokensOfProp).flatten ++
        rest))).2).2) = some (s, rest)
  simp only [hnl3, hps]
  rw [hrep]

theorem tokensOfSection_len_pos (s : Section) : 1 ≤ (tokensOfSection s).length := by
  simp [tokensOfSection]
  omega

theorem parseSections_tokens : ∀ (ss : List Section),
    (∀ s ∈ ss, sectionOK s = true) →
    ∀ fuel, ((ss.map tokensOfSection).flatten).length ≤ fuel →
      parseSections fuel ((ss.map tokensOfSection).flatten) = (ss, []) := by
  intro ss
  induction ss with
  | nil =>
    intro hss fuel hf
    simp only [List.map_nil, List.flatten_nil]
    cases fuel with
    | zero => rfl
    | succ g =>
      show (match parseSection [] with
        | none => ([], [])
        | some (s, ts1) =>
          let r := parseSections g ts1
          (s :: r.1, r.2)) = ([], [])
      rfl
  | cons s ss2 ih =>
    intro hss fuel hf
    have hassoc : (((s :: ss2).map tokensOfSection).flatten) =
        tokensOfSection s ++ ((ss2.map tokensOfSection).flatten) := by simp
    have hnl2 : notNL ((ss2.map tokensOfSection).flatten) := notNL_sectionsRest ss2
    have hpn : parseProperty ((ss2.map tokensOfSection).flatten) = none :=
      parseProperty_sectionsFlat_none ss2
    have hsec := parseSection_tokens (hss s (by simp)) hnl2 hpn
    have hlen := tokensOfSection_len_pos s
    rw [hassoc] at hf ⊢
    cases fuel with
    | zero =>
      exfalso
      rw [List.length_append] at hf
      omega
    | succ g =>
      show (match parseSection (tokensOfSection s ++
          ((ss2.map tokensOfSection).flatten)) with
        | none => ([], tokensOfSection s ++ ((ss2.map tokensOfSection).flatten))
        | some (q, ts1) =>
          let r := parseSections g ts1
          (q :: r.1, r.2)) = (s :: ss2, [])
      rw [hsec]
      have hinner : parseSections g ((ss2.map tokensOfSection).flatten) =
          (ss2, []) := by
        apply ih (fun q hq => hss q (by simp [hq]))
        rw [List.length_append] at hf
        omega
      show (s :: (parseSections g ((ss2.map tokensOfSection).flatten)).1,
        (parseSections g ((ss2.map tokensOfSection).flatten)).2) = (s :: ss2, [])
      rw [hinner]

theorem notNL_tokensOfAST (t : AST) : notNL (tokensOfAST t) := by
  intro r2 h
  unfold tokensOfAST at h
  cases hp : t.Properties with
  | nil =>
    rw [hp] at h
    simp only [List.map_nil, List.flatten_nil, List.nil_append] at h
    exact notNL_sectionsRest t.Sections r2 h
  | cons p ps =>
    rw [hp, show ((p :: ps).map tokensOfProp).flatten ++
      (t.Sections.map tokensOfSection).flatten = tokensOfProp p ++
        ((ps.map tokensOfProp).flatten ++
          (t.Sections.map tokensOfSection).flatten) by simp] at h
    exact notNL_prop p _ r2 h

theorem parseAST_tokens {t : AST} (hps : ∀ p ∈ t.Properties, propOK p = true)
    (hss : ∀ s ∈ t.Sections, sectionOK s = true) :
    parseAST (tokensOfAST t) = some ⟨[], t.Properties, t.Sections⟩ := by
  have h1 : parseNewlines (tokensOfAST t) = (0, tokensOfAST t) :=
    parseNewlines_skip (notNL_tokensOfAST t)
  have h2 := parseProps_tokens t.Properties (notNL_sectionsRest t.Sections)
    (parseProperty_sectionsFlat_none t.Sections) hps
    ((t.Properties.map tokensOfProp).flatten ++
      (t.Sections.map tokensOfSection).flatten).length le_rfl
  have h3 := parseSections_tokens t.Sections hss
    ((t.Sections.map tokensOfSection).flatten).length le_rfl
  unfold parseAST
  show (if (parseSections (parseProps (parseNewlines
      (tokensOfAST t)).2.length (parseNewlines (tokensOfAST t)).2).2.length
      (parseProps (parseNewlines (tokensOfAST t)).2.length
        (parseNewlines (tokensOfAST t)).2).2).2 = []
    then some (AST.mk (List.replicate (parseNewlines (tokensOfAST t)).1 "\n")
      (parseProps (parseNewlines (tokensOfAST t)).2.length
        (parseNewlines (tokensOfAST t)).2).1
      (parseSections (parseProps (parseNewlines (tokensOfAST t)).2.length
        (parseNewlines (tokensOfAST t)).2).2.length
        (parseProps (parseNewlines (tokensOfAST t)).2.length
          (parseNewlines (tokensOfAST t)).2).2).1)
    else none) = some ⟨[], t.Properties, t.Sections⟩
  rw [h1]
  show (if (parseSections (parseProps (tokensOfAST t).length
      (tokensOfAST t)).2.length (parseProps (tokensOfAST t).length
        (tokensOfAST t)).2).2 = []
    then some (AST.mk [] (parseProps (tokensOfAST t).length (tokensOfAST t)).1
      (parseSections (parseProps (tokensOfAST t).length
        (tokensOfAST t)).2.length (parseProps (tokensOfAST t).length
          (tokensOfAST t)).2).1)
    else none) = some ⟨[], t.Properties, t.Sections⟩
  rw [show tokensOfAST t = (t.Properties.map tokensOfProp).flatten ++
    (t.Sections.map tokensOfSection).flatten from rfl, h2]
  simp only [h3]
  simp

/-- Parsing inverts rendering on canonical documents. -/
theorem parse_render {t : AST} (ht : astOK t = true) :
    parseDoc (render t) = some t := by
  have ht2 : (t.BlankLines = [] ∧ ∀ p ∈ t.Properties, propOK p = true) ∧
      ∀ s ∈ t.Sections, sectionOK s = true := by
    simpa [astOK, Bool.and_eq_true, List.all_eq_true,
      List.isEmpty_iff] using ht
  obtain ⟨⟨hbl, hp⟩, hs⟩ := ht2
  unfold parseDoc render
  rw [show (String.mk (renderAST t)).data = renderAST t from rfl]
  rw [lexL_render hp hs]
  show parseAST (tokensOfAST t) = some t
  rw [parseAST_tokens hp hs]
  obtain ⟨bl, props, secs⟩ := t
  simp only at hbl
  rw [hbl]

/-! ## The shape invariant of parser output -/

/-- The stored text of a token produced by the lexer lies in its lexical
class (stated for the identifier and comment tokens whose text the
parser stores verbatim). -/
def tokenOK : Token → Bool
  | .ident k => identOK (String.mk k)
  | .comment c => commentOK (String.mk c)
  | _ => true

theorem scan_tokenOK {cs : List Char} {t : Token} {rest : List Char}
    (h : scan cs = some (some t, rest)) : tokenOK t = true := by
  cases cs with
  | nil => simp [scan] at h
  | cons c cs2 =>
    simp only [scan] at h
    split_ifs at h with h1 h2 h3 h4 h5 h6 h7
    · -- ident
      simp at h
      obtain ⟨rfl, -⟩ := h
      have he : tokenOK (Token.ident (c :: cs2.takeWhile isIdentCont)) =
          (isIdentStart c && (cs2.takeWhile isIdentCont).all isIdentCont) := rfl
      rw [he, h1, Bool.true_and, List.all_eq_true]
      intro x hx
      exact List.mem_takeWhile_imp hx
    · -- string
      cases hs : scanStr cs2 with
      | none => rw [hs] at h; simp at h
      | some p =>
        rw [hs] at h
        simp at h
        obtain ⟨rfl, -⟩ := h
        rfl
    · -- float
      split at h
      next d rest2 heq =>
        split_ifs at h with hd
        · simp at h
          obtain ⟨rfl, -⟩ := h
          rfl
        · simp at h
          obtain ⟨rfl, -⟩ := h
          rfl
      next heq2 =>
        simp at h
        obtain ⟨rfl, -⟩ := h
        rfl
    · -- punct
      simp at h
      obtain ⟨rfl, -⟩ := h
      rfl
    · -- comment
      simp at h
      obtain ⟨rfl, -⟩ := h
      have he : tokenOK (Token.comment (c :: cs2.takeWhile (fun x => !(x == '\n')))) =
          ((c == '#' || c == ';') &&
            (cs2.takeWhile (fun x => !(x == '\n'))).all (fun x => !(x == '\n'))) := rfl
      rw [he]
      have hc : (c == '#' || c == ';') = true := by
        rcases h5 with rfl | rfl <;> rfl
      rw [hc, Bool.true_and, List.all_eq_true]
      intro x hx
      exact List.mem_takeWhile_imp (p := fun x => !(x == '\n')) hx
    · -- newline
      simp at h
      obtain ⟨rfl, -⟩ := h
      rfl
    · -- whitespace
      simp at h

theorem lexAux_tokenOK : ∀ (fuel : Nat) {cs : List Char} {ts : List Token},
    lexAux fuel cs = some ts → ∀ t ∈ ts, tokenOK t = true := by
  intro fuel
  induction fuel with
  | zero =>
    intro cs ts h t ht
    cases cs with
    | nil =>
      have h2 : some [] = some ts := h
      simp at h2
      subst h2
      simp at ht
    | cons c cs2 => simp [lexAux] at h
  | succ g ih =>
    intro cs ts h t ht
    cases cs with
    | nil =>
      have h2 : some [] = some ts := h
      simp at h2
      subst h2
      simp at ht
    | cons c cs2 =>
      have h2 : (match scan (c :: cs2) with
        | none => none
        | some (t?, rest) =>
          (lexAux g rest).map (fun l =>
            match t?, l with
            | some t2, l => t2 :: l
            | none, l => l)) = some ts := h
      cases hs : scan (c :: cs2) with
      | none => rw [hs] at h2; simp at h2
      | some p =>
        obtain ⟨t?, rest⟩ := p
        rw [hs] at h2
        cases t? with
        | none =>
          have h3 : (lexAux g rest).map (fun l => l) = some ts := h2
          cases hl : lexAux g rest with
          | none => rw [hl] at h3; simp at h3
          | some ts2 =>
            rw [hl] at h3
            simp at h3
            subst h3
            exact ih hl t ht
        | some t1 =>
          have h3 : (lexAux g rest).map (fun l => t1 :: l) = some ts := h2
          cases hl : lexAux g rest with
          | none => rw [hl] at h3; simp at h3
          | some ts2 =>
            rw [hl] at h3
            simp at h3
            subst h3
            rcases List.mem_cons.mp ht with rfl | hmem
            · exact scan_tokenOK hs
            · exact ih hl t hmem

theorem lexL_tokenOK {cs : List Char} {ts : List Token} (h : lexL cs = some ts) :
    ∀ t ∈ ts, tokenOK t = true :=
  lexAux_tokenOK cs.length h

theorem parseComments_tokenOK : ∀ (n : Nat) (ts : List Token), ts.length ≤ n →
    (∀ t ∈ ts, tokenOK t = true) →
    (∀ c ∈ (parseComments ts).1, commentOK c = true) ∧
    (∀ t ∈ (parseComments ts).2, tokenOK t = true) := by
  intro n
  induction n with
  | zero =>
    intro ts h hts
    have : ts = [] := List.length_eq_zero.mp (by omega)
    subst this
    exact ⟨by simp [parseComments], hts⟩
  | succ m ih =>
    intro ts h hts
    cases ts with
    | nil => exact ⟨by simp [parseComments], hts⟩
    | cons t1 tail =>
      cases t1 with
      | comment c =>
        cases tail with
        | nil => exact ⟨by simp [parseComments], hts⟩
        | cons t2 t3 =>
          cases t2 with
          | newline =>
            rw [show parseComments (Token.comment c :: Token.newline :: t3) =
              (String.mk c :: (parseComments t3).1, (parseComments t3).2) from rfl]
            have ihr := ih t3 (by simp at h ⊢; omega)
              (fun t ht => hts t (by simp [ht]))
            refine ⟨?_, ihr.2⟩
            intro x hx
            rcases List.mem_cons.mp hx with rfl | hx2
            · exact hts (Token.comment c) (by simp)
            · exact ihr.1 x hx2
          | ident s => exact ⟨by simp [parseComments], hts⟩
          | str r => exact ⟨by simp [parseComments], hts⟩
          | float f => exact ⟨by simp [parseComments], hts⟩
          | punct pc => exact ⟨by simp [parseComments], hts⟩
          | comment c2 => exact ⟨by simp [parseComments], hts⟩
      | ident s => exact ⟨by simp [parseComments], hts⟩
      | str r => exact ⟨by simp [parseComments], hts⟩
      | float f => exact ⟨by simp [parseComments], hts⟩
      | punct pc => exact ⟨by simp [parseComments], hts⟩
      | newline => exact ⟨by simp [parseComments], hts⟩

theorem parseNewlines_tokenOK {P : Token → Prop} :
    ∀ (ts : List Token), (∀ t ∈ ts, P t) → ∀ t ∈ (parseNewlines ts).2, P t := by
  intro ts
  induction ts with
  | nil => intro h t ht; simp [parseNewlines] at ht
  | cons t1 tail ih =>
    intro h t ht
    cases t1 with
    | newline =>
      rw [show parseNewlines (Token.newline :: tail) =
        ((parseNewlines tail).1 + 1, (parseNewlines tail).2) from rfl] at ht
      exact ih (fun x hx => h x (by simp [hx])) t ht
    | ident s => exact h t (by simpa [parseNewlines] using ht)
    | str r => exact h t (by simpa [parseNewlines] using ht)
    | float f => exact h t (by simpa [parseNewlines] using ht)
    | punct c => exact h t (by simpa [parseNewlines] using ht)
    | comment c => exact h t (by simpa [parseNewlines] using ht)

/-- `parseDecChars` always yields a magnitude in normal form. -/
theorem parseDecChars_norm (cs : List Char) :
    normDec (parseDecChars cs) = parseDecChars cs := by
  unfold parseDecChars
  split
  · exact normDec_idem _
  · exact normDec_idem _

theorem parseValue_tokenOK {ts : List Token} {v : Value} {rest : List Token}
    (h : parseValue ts = some (v, rest))
    (hts : ∀ t ∈ ts, tokenOK t = true) :
    valueOK v = true ∧ ∀ t ∈ rest, tokenOK t = true := by
  cases ts with
  | nil => simp [parseValue] at h
  | cons t tail =>
    cases t with
    | str raw =>
      simp only [parseValue] at h
      cases hu : unquote raw with
      | none => rw [hu] at h; simp at h
      | some u =>
        rw [hu] at h
        simp at h
        obtain ⟨rfl, rfl⟩ := h
        exact ⟨rfl, fun t ht => hts t (by simp [ht])⟩
    | float ds =>
      simp only [parseValue] at h
      simp at h
      obtain ⟨rfl, rfl⟩ := h
      refine ⟨?_, fun t ht => hts t (by simp [ht])⟩
      show (normDec (parseDecChars ds) == parseDecChars ds) = true
      rw [parseDecChars_norm]
      simp
    | ident s => simp [parseValue] at h
    | punct c => simp [parseValue] at h
    | comment c => simp [parseValue] at h
    | newline => simp [parseValue] at h

theorem parseProperty_tokenOK {ts : List Token} {p : Property} {rest : List Token}
    (h : parseProperty ts = some (p, rest))
    (hts : ∀ t ∈ ts, tokenOK t = true) :
    propOK p = true ∧ ∀ t ∈ rest, tokenOK t = true := by
  rcases hc : parseComments ts with ⟨cmts, ts1⟩
  have hcinv := parseComments_tokenOK ts.length ts le_rfl hts
  rw [hc] at hcinv
  obtain ⟨hcmts, hts1⟩ := hcinv
  unfold parseProperty at h
  rw [hc] at h
  cases ts1 with
  | nil => simp at h
  | cons t1 tail1 =>
    cases t1 with
    | ident k =>
      cases tail1 with
      | nil => simp at h
      | cons t2 ts2 =>
        cases t2 with
        | punct pc =>
          by_cases hpc : pc = '='
          · subst hpc
            have h2 : ((match parseValue ts2 with
              | none => none
              | some (v, ts3) =>
                match ts3 with
                | Token.newline :: ts4 =>
                  some (Property.mk cmts (String.mk k) v
                    (List.replicate (parseNewlines ts4).1 "\n"),
                    (parseNewlines ts4).2)
                | _ => some (Property.mk cmts (String.mk k) v [], ts3)) :
              Option (Property × List Token)) = some (p, rest) := h
            have hkOK : identOK (String.mk k) = true :=
              hts1 (Token.ident k) (by simp)
            have hts2 : ∀ t ∈ ts2, tokenOK t = true :=
              fun t ht => hts1 t (by simp [ht])
            cases hv : parseValue ts2 with
            | none => rw [hv] at h2; simp at h2
            | some pv =>
              obtain ⟨v, ts3⟩ := pv
              rw [hv] at h2
              obtain ⟨hvOK, hts3⟩ := parseValue_tokenOK hv hts2
              have hPOK : ∀ bl : List String, bl.all (fun b => b == "\n") = true →
                  propOK (Property.mk cmts (String.mk k) v bl) = true := by
                intro bl hbl
                simp only [propOK, Bool.and_eq_true]
                exact ⟨⟨⟨hkOK, by rw [List.all_eq_true]; exact hcmts⟩, hvOK⟩, hbl⟩
              cases ts3 with
              | nil =>
                simp at h2
                obtain ⟨rfl, rfl⟩ := h2
                exact ⟨hPOK [] (by simp), by simp⟩
              | cons t3 ts4 =>
                cases t3 with
                | newline =>
                  simp at h2
                  obtain ⟨rfl, rfl⟩ := h2
                  refine ⟨hPOK _ ?_, ?_⟩
                  · rw [List.all_eq_true]
                    intro b hb
                    rw [List.eq_of_mem_replicate hb]
                    rfl
                  · exact parseNewlines_tokenOK ts4
                      (fun t ht => hts3 t (by simp [ht]))
                | ident s =>
                  simp at h2
                  obtain ⟨rfl, rfl⟩ := h2
                  exact ⟨hPOK [] (by simp), hts3⟩
                | str r =>
                  simp at h2
                  obtain ⟨rfl, rfl⟩ := h2
                  exact ⟨hPOK [] (by simp), hts3⟩
                | float f =>
                  simp at h2
                  obtain ⟨rfl, rfl⟩ := h2
                  exact ⟨hPOK [] (by simp), hts3⟩
                | punct c2 =>
                  simp at h2
                  obtain ⟨rfl, rfl⟩ := h2
                  exact ⟨hPOK [] (by simp), hts3⟩
                | comment c2 =>
                  simp at h2
                  obtain ⟨rfl, rfl⟩ := h2
                  exact ⟨hPOK [] (by simp), hts3⟩
          · simp [hpc] at h
        | ident s => simp at h
        | str r => simp at h
        | float f => simp at h
        | comment c2 => simp at h
        | newline => simp at h
    | punct pc => simp at h
    | str r => simp at h
    | float f => simp at h
    | comment c2 => simp at h
    | newline => simp at h

theorem parseProps_tokenOK : ∀ (fuel : Nat) (ts : List Token),
    (∀ t ∈ ts, tokenOK t = true) →
    (∀ p ∈ (parseProps fuel ts).1, propOK p = true) ∧
    (∀ t ∈ (parseProps fuel ts).2, tokenOK t = true) := by
  intro fuel
  induction fuel with
  | zero => intro ts hts; exact ⟨by simp [parseProps], hts⟩
  | succ g ih =>
    intro ts hts
    cases hp : parseProperty ts with
    | none =>
      rw [show parseProps (g + 1) ts = ([], ts) from by
        show (match parseProperty ts with
          | none => ([], ts)
          | some (p, ts1) =>
            let r := parseProps g ts1
            (p :: r.1, r.2)) = ([], ts)
        rw [hp]]
      exact ⟨by simp, hts⟩
    | some pr =>
      obtain ⟨p, ts1⟩ := pr
      rw [show parseProps (g + 1) ts =
          (p :: (parseProps g ts1).1, (parseProps g ts1).2) from by
        show (match parseProperty ts with
          | none => ([], ts)
          | some (p, ts1) =>
            let r := parseProps g ts1
            (p :: r.1, r.2)) = (p :: (parseProps g ts1).1, (parseProps g ts1).2)
        rw [hp]]
      obtain ⟨hpOK, hts1⟩ := parseProperty_tokenOK hp hts
      obtain ⟨ih1, ih2⟩ := ih ts1 hts1
      refine ⟨?_, ih2⟩
      intro q hq
      rcases List.mem_cons.mp hq with rfl | hq2
      · exact hpOK
      · exact ih1 q hq2

theorem parseSection_tokenOK {ts : List Token} {s : Section} {rest : List Token}
    (h : parseSection ts = some (s, rest))
    (hts : ∀ t ∈ ts, tokenOK t = true) :
    sectionOK s = true ∧ ∀ t ∈ rest, tokenOK t = true := by
  rcases hc : parseComments ts with ⟨cmts, ts1⟩
  have hcinv := parseComments_tokenOK ts.length ts le_rfl hts
  rw [hc] at hcinv
  obtain ⟨hcmts, hts1⟩ := hcinv
  unfold parseSection at h
  rw [hc] at h
  cases ts1 with
  | nil => simp at h
  | cons t1 tail1 =>
    cases t1 with
    | punct pc1 =>
      by_cases hpc1 : pc1 = '['
      · subst hpc1
        cases tail1 with
        | nil => simp at h
        | cons t2 tail2 =>
          cases t2 with
          | ident nm =>
            cases tail2 with
            | nil => simp at h
            | cons t3 ts2 =>
              cases t3 with
              | punct pc2 =>
                by_cases hpc2 : pc2 = ']'
                · subst hpc2
                  have hnmOK : identOK (String.mk nm) = true :=
                    hts1 (Token.ident nm) (by simp)
                  have hts2 : ∀ t ∈ ts2, tokenOK t = true :=
                    fun t ht => hts1 t (by simp [ht])
                  have hSOK : ∀ (bl : List String) (ps : List Property),
                      bl.all (fun b => b == "\n") = true →
                      (∀ p ∈ ps, propOK p = true) →
                      sectionOK (Section.mk cmts (String.mk nm) bl ps) = true := by
                    intro bl ps hbl hps
                    simp only [sectionOK, Bool.and_eq_true]
                    exact ⟨⟨⟨hnmOK, by rw [List.all_eq_true]; exact hcmts⟩,
                      by rw [List.all_eq_true]; exact hps⟩, hbl⟩
                  cases ts2 with
                  | nil =>
                    have h2 : some (Section.mk cmts (String.mk nm) []
                        (parseProps ([] : List Token).length []).1,
                        (parseProps ([] : List Token).length []).2)
                        = some (s, rest) := h
                    simp at h2
                    obtain ⟨rfl, rfl⟩ := h2
                    obtain ⟨hps, hrest⟩ := parseProps_tokenOK _ _ hts2
                    exact ⟨hSOK [] _ (by simp) hps, hrest⟩
                  | cons t4 ts3 =>
                    cases t4 with
                    | newline =>
                      have h2 : some (Section.mk cmts (String.mk nm)
                          (List.replicate (parseNewlines ts3).1 "\n")
                          (parseProps (parseNewlines ts3).2.length
                            (parseNewlines ts3).2).1,
                          (parseProps (parseNewlines ts3).2.length
                            (parseNewlines ts3).2).2) = some (s, rest) := h
                      simp at h2
                      obtain ⟨rfl, rfl⟩ := h2
                      have hts3 : ∀ t ∈ ts3, tokenOK t = true :=
                        fun t ht => hts2 t (by simp [ht])
                      have hts4 := parseNewlines_tokenOK ts3 hts3
                      obtain ⟨hps, hrest⟩ := parseProps_tokenOK _ _ hts4
                      refine ⟨hSOK _ _ ?_ hps, hrest⟩
                      rw [List.all_eq_true]
                      intro b hb
                      rw [List.eq_of_mem_replicate hb]
                      rfl
                    | ident s2 =>
                      have h2 : some (Section.mk cmts (String.mk nm) []
                          (parseProps (Token.ident s2 :: ts3).length
                            (Token.ident s2 :: ts3)).1,
                          (parseProps (Token.ident s2 :: ts3).length
                            (Token.ident s2 :: ts3)).2) = some (s, rest) := h
                      simp at h2
                      obtain ⟨rfl, rfl⟩ := h2
                      obtain ⟨hps, hrest⟩ := parseProps_tokenOK _ _ hts2
                      exact ⟨hSOK [] _ (by simp) hps, hrest⟩
                    | str r =>
                      have h2 : some (Section.mk cmts (String.mk nm) []
                          (parseProps (Token.str r :: ts3).length
                            (Token.str r :: ts3)).1,
                          (parseProps (Token.str r :: ts3).length
                            (Token.str r :: ts3)).2) = some (s, rest) := h
                      simp at h2
                      obtain ⟨rfl, rfl⟩ := h2
                      obtain ⟨hps, hrest⟩ := parseProps_tokenOK _ _ hts2
                      exact ⟨hSOK [] _ (by simp) hps, hrest⟩
                    | float f =>
                      have h2 : some (Section.mk cmts (String.mk nm) []
                          (parseProps (Token.float f :: ts3).length
                            (Token.float f :: ts3)).1,
                          (parseProps (Token.float f :: ts3).length
                            (Token.float f :: ts3)).2) = some (s, rest) := h
                      simp at h2
                      obtain ⟨rfl, rfl⟩ := h2
                      obtain ⟨hps, hrest⟩ := parseProps_tokenOK _ _ hts2
                      exact ⟨hSOK [] _ (by simp) hps, hrest⟩
                    | punct c4 =>
                      have h2 : some (Section.mk cmts (String.mk nm) []
                          (parseProps (Token.punct c4 :: ts3).length
                            (Token.punct c4 :: ts3)).1,
                          (parseProps (Token.punct c4 :: ts3).length
                            (Token.punct c4 :: ts3)).2) = some (s, rest) := h
                      simp at h2
                      obtain ⟨rfl, rfl⟩ := h2
                      obtain ⟨hps, hrest⟩ := parseProps_tokenOK _ _ hts2
                      exact ⟨hSOK [] _ (by simp) hps, hrest⟩
                    | comment c4 =>
                      have h2 : some (Section.mk cmts (String.mk nm) []
                          (parseProps (Token.comment c4 :: ts3).length
                            (Token.comment c4 :: ts3)).1,
                          (parseProps (Token.comment c4 :: ts3).length
                            (Token.comment c4 :: ts3)).2) = some (s, rest) := h
                      simp at h2
                      obtain ⟨rfl, rfl⟩ := h2
                      obtain ⟨hps, hrest⟩ := parseProps_tokenOK _ _ hts2
                      exact ⟨hSOK [] _ (by simp) hps, hrest⟩
                · simp [hpc2] at h
              | ident s2 => simp at h
              | str r => simp at h
              | float f => simp at h
              | comment c2 => simp at h
              | newline => simp at h
          | punct pc2 => simp at h
          | str r => simp at h
          | float f => simp at h
          | comment c2 => simp at h
          | newline => simp at h
      · simp [hpc1] at h
    | ident s2 => simp at h
    | str r => simp at h
    | float f => simp at h
    | comment c2 => simp at h
    | newline => simp at h

theorem parseSections_tokenOK : ∀ (fuel : Nat) (ts : List Token),
    (∀ t ∈ ts, tokenOK t = true) →
    (∀ s ∈ (parseSections fuel ts).1, sectionOK s = true) ∧
    (∀ t ∈ (parseSections fuel ts).2, tokenOK t = true) := by
  intro fuel
  induction fuel with
  | zero => intro ts hts; exact ⟨by simp [parseSections], hts⟩
  | succ g ih =>
    intro ts hts
    cases hp : parseSection ts with
    | none =>
      rw [show parseSections (g + 1) ts = ([], ts) from by
        show (match parseSection ts with
          | none => ([], ts)
          | some (s, ts1) =>
            let r := parseSections g ts1
            (s :: r.1, r.2)) = ([], ts)
        rw [hp]]
      exact ⟨by simp, hts⟩
    | some pr =>
      obtain ⟨s, ts1⟩ := pr
      rw [show parseSections (g + 1) ts =
          (s :: (parseSections g ts1).1, (parseSections g ts1).2) from by
        show (match parseSection ts with
          | none => ([], ts)
          | some (s, ts1) =>
            let r := parseSections g ts1
            (s :: r.1, r.2)) =
          (s :: (parseSections g ts1).1, (parseSections g ts1).2)
        rw [hp]]
      obtain ⟨hsOK, hts1⟩ := parseSection_tokenOK hp hts
      obtain ⟨ih1, ih2⟩ := ih ts1 hts1
      refine ⟨?_, ih2⟩
      intro q hq
      rcases List.mem_cons.mp hq with rfl | hq2
      · exact hsOK
      · exact ih1 q hq2

theorem parseAST_tokenOK {ts : List Token} {t : AST} (h : parseAST ts = some t)
    (hts : ∀ x ∈ ts, tokenOK x = true) : astOK (stripRoot t) = true := by
  unfold parseAST at h
  have h2 : (if (parseSections (parseProps (parseNewlines ts).2.length
      (parseNewlines ts).2).2.length (parseProps (parseNewlines ts).2.length
      (parseNewlines ts).2).2).2 = []
    then some (AST.mk (List.replicate (parseNewlines ts).1 "\n")
      (parseProps (parseNewlines ts).2.length (parseNewlines ts).2).1
      (parseSections (parseProps (parseNewlines ts).2.length
        (parseNewlines ts).2).2.length (parseProps (parseNewlines ts).2.length
        (parseNewlines ts).2).2).1)
    else none) = some t := h
  split_ifs at h2 with hnil
  · simp at h2
    subst h2
    have hts1 := parseNewlines_tokenOK ts hts
    obtain ⟨hps, hts2⟩ := parseProps_tokenOK _ _ hts1
    obtain ⟨hss, -⟩ := parseSections_tokenOK _ _ hts2
    simp only [astOK, stripRoot, Bool.and_eq_true]
    refine ⟨⟨rfl, ?_⟩, ?_⟩
    · rw [List.all_eq_true]
      exact hps
    · rw [List.all_eq_true]
      exact hss

/-- The parse result satisfies the canonical-shape invariant once the
root's recorded leading blank lines (which the encoder drops) are
removed. -/
theorem parseDoc_shape {s : String} {t : AST} (h : parseDoc s = some t) :
    astOK (stripRoot t) = true := by
  unfold parseDoc at h
  cases hl : lexL s.data with
  | none => rw [hl] at h; simp at h
  | some ts =>
    rw [hl] at h
    simp at h
    exact parseAST_tokenOK h (lexL_tokenOK hl)

/-- The encoder never reads the root's blank lines. -/
theorem render_stripRoot (t : AST) : render (stripRoot t) = render t := rfl

/-! ## Claims C1–C3 -/

/-- C1 as stated fails: the text `"b=2\n"` conforms to the grammar
(parsing succeeds), records no leading blank lines, and ends with a
newline, yet rendering the parse result yields `"b = 2\n"`, not the
original text — the encoder reformats the property spacing. -/
theorem roundtrip_exact_counterexample :
    (parseDoc "b=2\n").isSome = true ∧
    (parseDoc "b=2\n").map AST.BlankLines = some [] ∧
    "b=2\n".data.getLast? = some '\n' ∧
    (parseDoc "b=2\n").map render = some "b = 2\n" ∧
    "b = 2\n" ≠ "b=2\n" := by
  decide

/-- C1 (amended): for every text in the encoder's canonical format —
the render of a document with no root blank lines and well-formed
stored token texts — parsing succeeds and re-rendering reproduces the
text exactly. -/
theorem roundtrip_exact (T : String)
    (h : ∃ t, astOK t = true ∧ render t = T) :
    ∃ t2, parseDoc T = some t2 ∧ render t2 = T := by
  obtain ⟨t, ht, rfl⟩ := h
  exact ⟨t, parse_render ht, rfl⟩

theorem roundtrip_exact_witness :
    ∃ t2, parseDoc "b = 2\n" = some t2 ∧ render t2 = "b = 2\n" :=
  roundtrip_exact "b = 2\n"
    ⟨AST.mk [] [Property.mk [] "b" (Value.number (Dec.mk 2 0)) []] [],
      by decide, by decide⟩

/-- C2: for every parseable text, one render pass reaches a fixed
point — parsing the rendered text succeeds and rendering the result
gives the same text again; and the encoder is a pure function of the
tree, so two renders of the same tree are identical. -/
theorem rerender_fixed_point {T : String} {t : AST}
    (h : parseDoc T = some t) :
    (parseDoc (render t)).map render = some (render t) ∧
    render t = render t := by
  have hOK := parseDoc_shape h
  have hp : parseDoc (render t) = some (stripRoot t) := by
    rw [← render_stripRoot]
    exact parse_render hOK
  rw [hp]
  exact ⟨by rw [Option.map_some', render_stripRoot], rfl⟩

theorem rerender_fixed_point_witness :
    (parseDoc (render (AST.mk ["\n"]
        [Property.mk [] "b" (Value.number (Dec.mk 2 0)) []] []))).map render
      = some (render (AST.mk ["\n"]
        [Property.mk [] "b" (Value.number (Dec.mk 2 0)) []] [])) ∧
    render (AST.mk ["\n"] [Property.mk [] "b" (Value.number (Dec.mk 2 0)) []] [])
      = render (AST.mk ["\n"]
        [Property.mk [] "b" (Value.number (Dec.mk 2 0)) []] []) :=
  rerender_fixed_point (T := "\nb=2") (by decide)

/-- C3: a run of comment lines attaches to the construct that follows
it — followed by `key = value` it becomes the property's comments,
followed by `[name]` it becomes the section's comments; this holds for
every non-empty run of well-formed comment lines. -/
theorem comment_attachment (cs : List String) (k nm : String) (v : Value)
    (_hcs : cs ≠ []) (hok : ∀ c ∈ cs, commentOK c = true)
    (hk : identOK k = true) (hnm : identOK nm = true)
    (hv : valueOK v = true) :
    parseDoc (String.mk ((cs.map (fun c => c.data ++ ['\n'])).flatten
        ++ (k.data ++ ' ' :: '=' :: ' ' :: valueChars v ++ ['\n'])))
      = some (AST.mk [] [Property.mk cs k v []] []) ∧
    parseDoc (String.mk ((cs.map (fun c => c.data ++ ['\n'])).flatten
        ++ ('[' :: nm.data ++ [']', '\n'])))
      = some (AST.mk [] [] [Section.mk cs nm [] []]) := by
  constructor
  · have ht : astOK (AST.mk [] [Property.mk cs k v []] []) = true := by
      have h1 : propOK (Property.mk cs k v []) = true := by
        simp only [propOK, Bool.and_eq_true]
        exact ⟨⟨⟨hk, by rw [List.all_eq_true]; exact hok⟩, hv⟩, by simp⟩
      simp [astOK, h1]
    have hr : render (AST.mk [] [Property.mk cs k v []] [])
        = String.mk ((cs.map (fun c => c.data ++ ['\n'])).flatten
          ++ (k.data ++ ' ' :: '=' :: ' ' :: valueChars v ++ ['\n'])) := by
      show String.mk _ = String.mk _
      simp [renderAST, renderProp]
    rw [← hr]
    exact parse_render ht
  · have ht : astOK (AST.mk [] [] [Section.mk cs nm [] []]) = true := by
      have h1 : sectionOK (Section.mk cs nm [] []) = true := by
        simp only [sectionOK, Bool.and_eq_true]
        exact ⟨⟨⟨hnm, by rw [List.all_eq_true]; exact hok⟩, by simp⟩, by simp⟩
      simp [astOK, h1]
    have hr : render (AST.mk [] [] [Section.mk cs nm [] []])
        = String.mk ((cs.map (fun c => c.data ++ ['\n'])).flatten
          ++ ('[' :: nm.data ++ [']', '\n'])) := by
      show String.mk _ = String.mk _
      simp [renderAST, renderSection]
    rw [← hr]
    exact parse_render ht

theorem comment_attachment_witness :
    parseDoc (String.mk (((["# one"] : List String).map
        (fun c => c.data ++ ['\n'])).flatten
        ++ (("key" : String).data ++ ' ' :: '=' :: ' '
          :: valueChars (Value.number (Dec.mk 7 0)) ++ ['\n'])))
      = some (AST.mk []
          [Property.mk ["# one"] "key" (Value.number (Dec.mk 7 0)) []] []) ∧
    parseDoc (String.mk (((["; a", "# b"] : List String).map
        (fun c => c.data ++ ['\n'])).flatten
        ++ ('[' :: ("sec" : String).data ++ [']', '\n'])))
      = some (AST.mk [] [] [Section.mk ["; a", "# b"] "sec" [] []]) :=
  ⟨(comment_attachment ["# one"] "key" "x" (Value.number (Dec.mk 7 0))
      (by decide) (by decide) (by decide) (by decide) (by decide)).1,
   (comment_attachment ["; a", "# b"] "x" "sec" (Value.number (Dec.mk 7 0))
      (by decide) (by decide) (by decide) (by decide) (by decide)).2⟩

end RoundtripIni
